import Mathlib

/-!
Verification of the statistical-result contract of the SPSS-automation service
(`src/app.py`).  Each analyzer of the Python source is shallowly embedded as a
total Lean function over exact rationals:

* a pandas `DataFrame` restricted to the columns an analyzer selects is passed
  as the corresponding list of (optionally missing) cells, mirroring
  `self.df[[...]].dropna()`;
* every caught Python exception and every explicit `return {"error": ...}`
  is the `Res.err` constructor, carrying exactly the message string;
* IEEE floats are idealised as exact rationals; the transcendental routines of
  the statistics libraries (`np.sqrt`, the p-value tails of `scipy.stats`,
  `statsmodels` OLS fitting) are abstracted as explicit function parameters,
  while every arithmetic step the Python source performs itself is embedded
  exactly;
* Python's `round(x, d)` (banker's rounding to `d` decimals) is `roundTo d`.
-/

namespace SPSS

/-- Outcome of one analyzer: either a success record of the analysis-specific
shape, or — exactly as in the Python `except` branches and guard returns — a
record consisting of the single string-valued field `"error"`. -/
inductive Res (α : Type) : Type where
  | ok : α → Res α
  | err : String → Res α
deriving DecidableEq, Repr

/-- Round-half-to-even to the nearest integer, the semantics of Python's
built-in `round`. -/
def roundHE (x : ℚ) : ℤ :=
  if x - ⌊x⌋ < 1/2 then ⌊x⌋
  else if 1/2 < x - ⌊x⌋ then ⌊x⌋ + 1
  else if 2 ∣ ⌊x⌋ then ⌊x⌋ else ⌊x⌋ + 1

/-- Python's `round(x, d)`: banker's rounding at `d` decimal places. -/
def roundTo (d : ℕ) (x : ℚ) : ℚ := (roundHE (x * 10 ^ d) : ℚ) / 10 ^ d

/-- Arithmetic mean, `pandas.Series.mean`; the empty mean is the junk value
`0/0 = 0` (that case is never hit by the analyzers on their success paths). -/
def meanQ (l : List ℚ) : ℚ := l.sum / l.length

/-- Sample variance with an `n - 1` denominator (`ddof = 1`), the default of
`pandas.Series.var`/`std`; a singleton gives the junk value `0/0 = 0` where
pandas would give `NaN`. -/
def varS (l : List ℚ) : ℚ :=
  (l.map (fun x => (x - meanQ l) ^ 2)).sum / ((l.length : ℚ) - 1)

/-- Fuelled worker for `uniqueFS`; structural recursion on the fuel keeps the
function kernel-reducible.  The fuel is always at least the list length at the
call sites. -/
def uniqueFSF {α : Type} [DecidableEq α] : ℕ → List α → List α
  | _, [] => []
  | 0, _ :: _ => []
  | n + 1, a :: rest => a :: uniqueFSF n (rest.filter (fun x => x ≠ a))

/-- Distinct values in order of first appearance: the semantics of
`pandas.Series.unique` used by `ttest` and `anova` to enumerate groups. -/
def uniqueFS {α : Type} [DecidableEq α] (l : List α) : List α :=
  uniqueFSF l.length l

/-- The rows of a dataframe (already restricted to the selected columns) that
survive `dropna()`: rows with no missing cell, with the `Option` wrappers
stripped. -/
def cleanRows (rows : List (List (Option ℚ))) : List (List ℚ) :=
  (rows.filter (fun r => r.all Option.isSome)).map (fun r => r.filterMap id)

/-- Column `j` of the cleaned row-major data. -/
def colQ (clean : List (List ℚ)) (j : ℕ) : List ℚ := clean.map (fun r => r.getD j 0)

/-- `InferentialAnalyzer._get_significance_level` (src/app.py:198-207). -/
def getSignificanceLevel (p : ℚ) : String :=
  if p < 1/1000 then "0.001"
  else if p < 1/100 then "0.01"
  else if p < 1/20 then "0.05"
  else "غير دال"

/-- `InferentialAnalyzer._interpret_cohens_d` (src/app.py:209-219). -/
def interpretCohensD (d : ℚ) : String :=
  if |d| < 2/10 then "ضعيف جداً"
  else if |d| < 5/10 then "صغير"
  else if |d| < 8/10 then "متوسط"
  else "كبير"

/-- `InferentialAnalyzer._interpret_r` (src/app.py:306-316). -/
def interpretR (r : ℚ) : String :=
  if |r| < 3/10 then "ضعيف"
  else if |r| < 5/10 then "متوسط"
  else if |r| < 7/10 then "قوي"
  else "قوي جداً"

/-! ## T-test (`InferentialAnalyzer.ttest`, src/app.py:153-196) -/

/-- Per-group descriptive block of a t-test Result Record
(`المجموعة_1` / `المجموعة_2`). -/
structure GroupStat where
  name : String
  count : ℕ
  mean : ℚ
  sd : ℚ
deriving DecidableEq, Repr

/-- The t-test Result Record on the success path (field names transliterated:
`sig` is `دال`, `sigLevel` is `مستوى_الدلالة`, `effectSize` is `حجم_الأثر`). -/
structure TTestOut where
  group1 : GroupStat
  group2 : GroupStat
  t : ℚ
  df : ℕ
  p : ℚ
  cohens_d : ℚ
  sig : Bool
  sigLevel : String
  effectSize : String
deriving DecidableEq, Repr

/-- `self.df[[group_var, value_var]].dropna()`: the rows of the two selected
columns that have both cells present. -/
def cleanPairs (rows : List (Option String × Option ℚ)) : List (String × ℚ) :=
  rows.filterMap (fun r => match r with
    | (some g, some v) => some (g, v)
    | _ => none)

/-- `clean_df[clean_df[group_var] == g][value_var]`: the value column of the
rows carrying group label `g`. -/
def groupVals (clean : List (String × ℚ)) (g : String) : List ℚ :=
  (clean.filter (fun r => r.1 = g)).map Prod.snd

/-- The group labels in order of first appearance
(`clean_df[group_var].unique()`). -/
def ttestGroups (rows : List (Option String × Option ℚ)) : List String :=
  uniqueFS ((cleanPairs rows).map Prod.fst)

/-- Values of the first-encountered group. -/
def ttestG1 (rows : List (Option String × Option ℚ)) : List ℚ :=
  groupVals (cleanPairs rows) ((ttestGroups rows).getD 0 "")

/-- Values of the second-encountered group. -/
def ttestG2 (rows : List (Option String × Option ℚ)) : List ℚ :=
  groupVals (cleanPairs rows) ((ttestGroups rows).getD 1 "")

/-- The squared `pooled_std` of src/app.py:168:
`((n1-1)*sd1² + (n2-1)*sd2²) / (n1+n2-2)`. -/
def pooledVar (g1 g2 : List ℚ) : ℚ :=
  (((g1.length : ℚ) - 1) * varS g1 + ((g2.length : ℚ) - 1) * varS g2) /
    ((g1.length : ℚ) + (g2.length : ℚ) - 2)

/-- The statistic of `scipy.stats.ttest_ind` (default `equal_var=True`,
Student's t): `(m1 - m2) / sqrt(sp² * (1/n1 + 1/n2))`; `sq` abstracts
`np.sqrt`. -/
def tStat (sq : ℚ → ℚ) (g1 g2 : List ℚ) : ℚ :=
  (meanQ g1 - meanQ g2) /
    sq (pooledVar g1 g2 * (1 / (g1.length : ℚ) + 1 / (g2.length : ℚ)))

/-- Cohen's d of src/app.py:169: `(m1 - m2) / pooled_std` guarded by
`pooled_std != 0`, in which degenerate case the value is defined to be `0`. -/
def cohensD (sq : ℚ → ℚ) (g1 g2 : List ℚ) : ℚ :=
  if sq (pooledVar g1 g2) ≠ 0 then (meanQ g1 - meanQ g2) / sq (pooledVar g1 g2) else 0

/-- One group's descriptive block (count, mean and sd rounded to 2 dp). -/
def mkGroupStat (sq : ℚ → ℚ) (name : String) (g : List ℚ) : GroupStat :=
  { name := name, count := g.length, mean := roundTo 2 (meanQ g),
    sd := roundTo 2 (sq (varS g)) }

/-- The success payload of `ttest`.  `pT df |t|` abstracts the two-sided tail
probability `scipy.stats.ttest_ind` derives from the symmetric t distribution
(a function of the degrees of freedom and of `|t|` alone). -/
def ttestRec (sq : ℚ → ℚ) (pT : ℕ → ℚ → ℚ)
    (rows : List (Option String × Option ℚ)) : TTestOut :=
  { group1 := mkGroupStat sq ((ttestGroups rows).getD 0 "") (ttestG1 rows)
    group2 := mkGroupStat sq ((ttestGroups rows).getD 1 "") (ttestG2 rows)
    t := roundTo 3 (tStat sq (ttestG1 rows) (ttestG2 rows))
    df := (ttestG1 rows).length + (ttestG2 rows).length - 2
    p := roundTo 4 (pT ((ttestG1 rows).length + (ttestG2 rows).length - 2)
          |tStat sq (ttestG1 rows) (ttestG2 rows)|)
    cohens_d := roundTo 3 (cohensD sq (ttestG1 rows) (ttestG2 rows))
    sig := decide (pT ((ttestG1 rows).length + (ttestG2 rows).length - 2)
          |tStat sq (ttestG1 rows) (ttestG2 rows)| < 1/20)
    sigLevel := getSignificanceLevel (pT ((ttestG1 rows).length + (ttestG2 rows).length - 2)
          |tStat sq (ttestG1 rows) (ttestG2 rows)|)
    effectSize := interpretCohensD (cohensD sq (ttestG1 rows) (ttestG2 rows)) }

/-- `InferentialAnalyzer.ttest`: fails with the cardinality message when the
cleaned group column does not have exactly two distinct values, and otherwise
returns the Result Record built by `ttestRec`. -/
def ttest (sq : ℚ → ℚ) (pT : ℕ → ℚ → ℚ) (group_var value_var : String)
    (rows : List (Option String × Option ℚ)) : Res TTestOut :=
  if (ttestGroups rows).length ≠ 2 then
    .err ("يجب أن يحتوي " ++ group_var ++ " على فئتين فقط. الفئات الحالية: "
      ++ toString (ttestGroups rows).length)
  else
    .ok (ttestRec sq pT rows)

/-! ### Transformations of the raw t-test input used by claims C4 and C5. -/

/-- Exchange the two group labels `a` and `b` in a single label. -/
def swapLab (a b g : String) : String :=
  if g = a then b else if g = b then a else g

/-- Relabel the raw two-column data, exchanging group labels `a` and `b`
pointwise (missing cells stay missing). -/
def relabel (a b : String) (rows : List (Option String × Option ℚ)) :
    List (Option String × Option ℚ) :=
  rows.map (fun r => (r.1.map (swapLab a b), r.2))

/-- Reorder the raw rows so the rows labelled `b` come before all others,
changing which group is encountered first without touching any value. -/
def reorderRows (b : String) (rows : List (Option String × Option ℚ)) :
    List (Option String × Option ℚ) :=
  rows.filter (fun r => r.1 = some b) ++ rows.filter (fun r => ¬ (r.1 = some b))

/-! ## One-way ANOVA (`InferentialAnalyzer.anova`, src/app.py:221-265)

The raw input is the pair of selected columns `(independent, dependent)` in
the same `(Option String × Option ℚ)` row shape as the t-test, and the group
labels are again `uniqueFS` of the cleaned label column
(`clean_df[independent].unique()`).  `scipy.stats.f_oneway` is abstracted as
the parameter `fOneway` from the list of group samples to the pair `(F, p)`;
it raises (`TypeError`) when given fewer than two groups, which is the only
exception reachable from `anova`'s body. -/

/-- The ANOVA Result Record on the success path. -/
structure AnovaOut where
  numGroups : ℕ
  groups : List GroupStat
  F : ℚ
  df_between : ℕ
  df_within : ℕ
  p : ℚ
  eta_squared : ℚ
  sig : Bool
  sigLevel : String
deriving DecidableEq, Repr

/-- `grand_mean = clean_df[dependent].mean()` (src/app.py:246). -/
def grandMean (clean : List (String × ℚ)) : ℚ := meanQ (clean.map Prod.snd)

/-- `ss_between` of src/app.py:247-249: `Σ_g n_g · (mean_g − grand_mean)²`
over the distinct groups. -/
def ssBetween (clean : List (String × ℚ)) : ℚ :=
  ((uniqueFS (clean.map Prod.fst)).map (fun g =>
    ((groupVals clean g).length : ℚ) *
      (meanQ (groupVals clean g) - grandMean clean) ^ 2)).sum

/-- `ss_total` of src/app.py:250: `Σ (x − grand_mean)²` over all cleaned
rows. -/
def ssTotal (clean : List (String × ℚ)) : ℚ :=
  ((clean.map Prod.snd).map (fun x => (x - grandMean clean) ^ 2)).sum

/-- The within-group sum of squares `Σ_g Σ_{x ∈ g} (x − mean_g)²`.  `anova`
does not compute this quantity itself; it is the standard SS_within the
spec's identity `SS_between + SS_within = SS_total` refers to. -/
def ssWithin (clean : List (String × ℚ)) : ℚ :=
  ((uniqueFS (clean.map Prod.fst)).map (fun g =>
    ((groupVals clean g).map (fun x => (x - meanQ (groupVals clean g)) ^ 2)).sum)).sum

/-- `eta_squared = ss_between / ss_total if ss_total != 0 else 0`
(src/app.py:251). -/
def etaSquared (clean : List (String × ℚ)) : ℚ :=
  if ssTotal clean ≠ 0 then ssBetween clean / ssTotal clean else 0

/-- The success payload of `anova`. -/
def anovaRec (sq : ℚ → ℚ) (fOneway : List (List ℚ) → ℚ × ℚ)
    (rows : List (Option String × Option ℚ)) : AnovaOut :=
  { numGroups := (uniqueFS ((cleanPairs rows).map Prod.fst)).length
    groups := (uniqueFS ((cleanPairs rows).map Prod.fst)).map (fun g =>
      mkGroupStat sq g (groupVals (cleanPairs rows) g))
    F := roundTo 3 (fOneway ((uniqueFS ((cleanPairs rows).map Prod.fst)).map
      (fun g => groupVals (cleanPairs rows) g))).1
    df_between := (uniqueFS ((cleanPairs rows).map Prod.fst)).length - 1
    df_within := (cleanPairs rows).length - (uniqueFS ((cleanPairs rows).map Prod.fst)).length
    p := roundTo 4 (fOneway ((uniqueFS ((cleanPairs rows).map Prod.fst)).map
      (fun g => groupVals (cleanPairs rows) g))).2
    eta_squared := roundTo 3 (etaSquared (cleanPairs rows))
    sig := decide ((fOneway ((uniqueFS ((cleanPairs rows).map Prod.fst)).map
      (fun g => groupVals (cleanPairs rows) g))).2 < 1/20)
    sigLevel := getSignificanceLevel (fOneway ((uniqueFS ((cleanPairs rows).map Prod.fst)).map
      (fun g => groupVals (cleanPairs rows) g))).2 }

/-- `InferentialAnalyzer.anova`: the only reachable exception is
`scipy.stats.f_oneway`'s complaint with fewer than two groups, which the
`except` branch converts to an error record. -/
def anova (sq : ℚ → ℚ) (fOneway : List (List ℚ) → ℚ × ℚ) (dependent independent : String)
    (rows : List (Option String × Option ℚ)) : Res AnovaOut :=
  if (uniqueFS ((cleanPairs rows).map Prod.fst)).length < 2 then
    .err "خطأ في ANOVA: at least two inputs are required"
  else
    .ok (anovaRec sq fOneway rows)

/-! ## Correlation (`InferentialAnalyzer.correlation`, src/app.py:267-304)

The input is the list of selected column names plus the row-major data of
`self.df[variables]`; `dropna()` is `cleanRows`.  The nested loops
`for i in range(len(variables)): for j in range(i+1, len(variables))` are the
index list `pairsIdx`.  `scipy.stats.pearsonr` raises exactly when the
cleaned length is `< 2` (reached only when at least one pair is formed, i.e.
when there are at least two variables); its `n == 2` early return is the sign
product with `p = 1`; for longer input the coefficient is
`Σ dx·dy / (sqrt(Σ dx²)·sqrt(Σ dy²))` (a constant column makes scipy return
NaN, which this total embedding renders as the junk value `0` — on both sides
`r > 0` is false, which is all the branch below inspects).  The Spearman and
Kendall statistics are library calls abstracted as `(stat, p)`-valued
parameters. -/

/-- One record of the `الارتباطات` list. -/
structure CorrPair where
  var1 : String
  var2 : String
  pearson_r : ℚ
  pearson_p : ℚ
  pearson_sig : String
  spearman_rho : ℚ
  spearman_p : ℚ
  spearman_sig : String
  kendall_tau : ℚ
  kendall_p : ℚ
  kendall_sig : String
  strength : String
  direction : String
deriving DecidableEq, Repr

/-- The correlation Result Record on the success path: just the flat list of
pair records (the analyzer emits no matrix). -/
structure CorrOut where
  pairs : List CorrPair
deriving DecidableEq, Repr

/-- `np.sign`. -/
def signQ (z : ℚ) : ℚ := if 0 < z then 1 else if z < 0 then -1 else 0

/-- The coefficient of `scipy.stats.pearsonr` (see the section comment). -/
def pearsonR (sq : ℚ → ℚ) (x y : List ℚ) : ℚ :=
  if x.length = 2 then
    signQ (x.getD 1 0 - x.getD 0 0) * signQ (y.getD 1 0 - y.getD 0 0)
  else
    ((x.zip y).map (fun p => (p.1 - meanQ x) * (p.2 - meanQ y))).sum /
      (sq ((x.map (fun v => (v - meanQ x) ^ 2)).sum) *
        sq ((y.map (fun v => (v - meanQ y) ^ 2)).sum))

/-- The index pairs `(i, j)` with `i < j < k` produced by the two nested
`range` loops, in loop order. -/
def pairsIdx (k : ℕ) : List (ℕ × ℕ) :=
  (List.range k).flatMap (fun i => (List.range' (i + 1) (k - (i + 1))).map (fun j => (i, j)))

/-- One pair record of the result list (loop body, src/app.py:275-300). -/
def mkCorrPair (sq : ℚ → ℚ) (pP : ℕ → ℚ → ℚ) (spF kdF : List ℚ → List ℚ → ℚ × ℚ)
    (names : List String) (clean : List (List ℚ)) (ij : ℕ × ℕ) : CorrPair :=
  { var1 := names.getD ij.1 ""
    var2 := names.getD ij.2 ""
    pearson_r := roundTo 3 (pearsonR sq (colQ clean ij.1) (colQ clean ij.2))
    pearson_p := roundTo 4 (if clean.length = 2 then 1
      else pP clean.length (pearsonR sq (colQ clean ij.1) (colQ clean ij.2)))
    pearson_sig := if (if clean.length = 2 then 1
      else pP clean.length (pearsonR sq (colQ clean ij.1) (colQ clean ij.2))) < 1/20
      then "نعم ✅" else "لا ❌"
    spearman_rho := roundTo 3 (spF (colQ clean ij.1) (colQ clean ij.2)).1
    spearman_p := roundTo 4 (spF (colQ clean ij.1) (colQ clean ij.2)).2
    spearman_sig := if (spF (colQ clean ij.1) (colQ clean ij.2)).2 < 1/20
      then "نعم ✅" else "لا ❌"
    kendall_tau := roundTo 3 (kdF (colQ clean ij.1) (colQ clean ij.2)).1
    kendall_p := roundTo 4 (kdF (colQ clean ij.1) (colQ clean ij.2)).2
    kendall_sig := if (kdF (colQ clean ij.1) (colQ clean ij.2)).2 < 1/20
      then "نعم ✅" else "لا ❌"
    strength := interpretR (pearsonR sq (colQ clean ij.1) (colQ clean ij.2))
    direction := if 0 < pearsonR sq (colQ clean ij.1) (colQ clean ij.2)
      then "طردي" else "عكسي" }

/-- `InferentialAnalyzer.correlation`: no explicit guard exists in the source;
the only reachable exception is `pearsonr`'s length check, caught and turned
into an error record.  With fewer than two variables the loop body never runs
and a success record with an empty list is returned. -/
def correlation (sq : ℚ → ℚ) (pP : ℕ → ℚ → ℚ) (spF kdF : List ℚ → List ℚ → ℚ × ℚ)
    (names : List String) (rows : List (List (Option ℚ))) : Res CorrOut :=
  if 2 ≤ names.length ∧ (cleanRows rows).length < 2 then
    .err "خطأ في الارتباط: x and y must have length at least 2."
  else
    .ok ⟨(pairsIdx names.length).map (mkCorrPair sq pP spF kdF names (cleanRows rows))⟩

/-! ## Cronbach's alpha (`InferentialAnalyzer.cronbach_alpha`, src/app.py:391-471)

The input is the list of item-column names together with the row-major data
of `self.df[variables]` (so the column-existence check of lines 398-400 is
outside this input space: the embedding quantifies over datasets that contain
the named columns, and `names.Nodup` marks the domain on which selecting
`df[other_vars]` by name in the item loop behaves as positional selection).
Sample (`ddof = 1`) variance is used throughout, `pandas.Series.corr` is the
Pearson quotient `cov/(sd·sd)` with `sq` abstracting the square root. -/

/-- One record of `إحصاءات_البنود`. -/
structure ItemStat where
  name : String
  mean : ℚ
  sd : ℚ
  item_total_corr : ℚ
  alpha_if_deleted : Option ℚ
deriving DecidableEq, Repr

/-- The Cronbach-alpha Result Record on the success path. -/
structure AlphaOut where
  alpha : ℚ
  numItems : ℕ
  sampleSize : ℕ
  classification : String
  items : List ItemStat
deriving DecidableEq, Repr

/-- The reliability bands of src/app.py:420-431. -/
def classifyAlpha (a : ℚ) : String :=
  if a < 5/10 then "غير مقبول"
  else if a < 6/10 then "ضعيف"
  else if a < 7/10 then "مقبول"
  else if a < 8/10 then "جيد"
  else if a < 9/10 then "جيد جداً"
  else "ممتاز"

/-- `pandas.Series.corr` (Pearson): sample covariance over the product of
sample standard deviations. -/
def corrQ (sq : ℚ → ℚ) (x y : List ℚ) : ℚ :=
  (((x.zip y).map (fun p => (p.1 - meanQ x) * (p.2 - meanQ y))).sum /
      ((x.length : ℚ) - 1)) / (sq (varS x) * sq (varS y))

/-- `item_variances.sum()` over the selected column indices. -/
def itemVarSum (clean : List (List ℚ)) (idx : List ℕ) : ℚ :=
  (idx.map (fun j => varS (colQ clean j))).sum

/-- `data[cols].sum(axis=1).var(ddof=1)`: the variance of the row-wise total
over the selected column indices. -/
def totalVarIdx (clean : List (List ℚ)) (idx : List ℕ) : ℚ :=
  varS (clean.map (fun r => (idx.map (fun j => r.getD j 0)).sum))

/-- `total_variance = data.sum(axis=1).var(ddof=1)` over all item columns
(src/app.py:412). -/
def totalVarQ (clean : List (List ℚ)) : ℚ := varS (clean.map List.sum)

/-- The α formula of src/app.py:417 over all the item columns:
`(k/(k-1))·(1 − Σ item variances / total variance)`. -/
def alphaQ (k : ℕ) (clean : List (List ℚ)) : ℚ :=
  ((k : ℚ) / ((k : ℚ) - 1)) * (1 - itemVarSum clean (List.range k) / totalVarQ clean)

/-- One item's record in the item-statistics loop (src/app.py:434-460). -/
def mkItemStat (sq : ℚ → ℚ) (names : List String) (clean : List (List ℚ)) (j : ℕ) :
    ItemStat :=
  { name := names.getD j ""
    mean := roundTo 2 (meanQ (colQ clean j))
    sd := roundTo 2 (sq (varS (colQ clean j)))
    item_total_corr := roundTo 3 (corrQ sq (colQ clean j) (clean.map List.sum))
    alpha_if_deleted :=
      if 1 < ((List.range names.length).filter
          (fun i => names.getD i "" ≠ names.getD j "")).length then
        if 0 < totalVarIdx clean ((List.range names.length).filter
            (fun i => names.getD i "" ≠ names.getD j "")) then
          some (roundTo 3 ((((List.range names.length).filter
              (fun i => names.getD i "" ≠ names.getD j "")).length : ℚ) /
            ((((List.range names.length).filter
              (fun i => names.getD i "" ≠ names.getD j "")).length : ℚ) - 1) *
            (1 - itemVarSum clean ((List.range names.length).filter
                (fun i => names.getD i "" ≠ names.getD j "")) /
              totalVarIdx clean ((List.range names.length).filter
                (fun i => names.getD i "" ≠ names.getD j "")))))
        else none
      else none }

/-- `InferentialAnalyzer.cronbach_alpha`: the three reachable failure
returns, in source order, then the success record. -/
def cronbach_alpha (sq : ℚ → ℚ) (names : List String) (rows : List (List (Option ℚ))) :
    Res AlphaOut :=
  if names.length < 2 then
    .err "يجب تحديد متغيرين على الأقل لحساب الثبات"
  else if (cleanRows rows).length < 3 then
    .err "البيانات غير كافية (يجب 3 حالات على الأقل)"
  else if totalVarQ (cleanRows rows) = 0 then
    .err "لا يوجد تباين في البيانات"
  else
    .ok { alpha := roundTo 3 (alphaQ names.length (cleanRows rows))
          numItems := names.length
          sampleSize := (cleanRows rows).length
          classification := classifyAlpha (alphaQ names.length (cleanRows rows))
          items := (List.range names.length).map (mkItemStat sq names (cleanRows rows)) }

/-! ## Multiple regression (`RegressionAnalyzer.multiple_regression`,
src/app.py:474-515)

The input is the dependent column name, the caller-supplied list of
independent column names, and the row-major data of
`self.df[[dependent] + independents]`.  The `statsmodels` OLS fit is
abstracted as `fit`, returning `none` when the library call raises (e.g. on
empty data) and otherwise a `FitRes` whose per-index accessors return `none`
for an out-of-range coefficient index — `sm.add_constant` silently skips
adding the intercept column when an independent is already constant, in
which case `model.params[k]` raises and the `except` branch produces an
error record. -/

/-- One row of the `المعاملات` list. -/
structure CoefRow where
  name : String
  coef : ℚ
  se : ℚ
  t : ℚ
  p : ℚ
  sig : Bool
deriving DecidableEq, Repr

/-- Abstraction of a fitted `statsmodels` OLS results object. -/
structure FitRes where
  params : ℕ → Option ℚ
  bse : ℕ → Option ℚ
  tvalues : ℕ → Option ℚ
  pvalues : ℕ → Option ℚ
  rsquared : ℚ
  rsquared_adj : ℚ
  fvalue : ℚ
  f_pvalue : ℚ
  df_model : ℤ
  df_resid : ℤ

/-- The regression Result Record on the success path. -/
structure RegOut where
  R2 : ℚ
  R2_adj : ℚ
  F : ℚ
  p_F : ℚ
  df_model : ℤ
  df_resid : ℤ
  coefficients : List CoefRow
  sig : Bool

/-- One coefficient row, `none` when the index is out of the fitted range. -/
def coefCell (m : FitRes) (i : ℕ) (v : String) : Option CoefRow :=
  match m.params i, m.bse i, m.tvalues i, m.pvalues i with
  | some c, some b, some t, some p =>
    some { name := v, coef := roundTo 4 c, se := roundTo 4 b, t := roundTo 3 t,
           p := roundTo 4 p, sig := decide (p < 1/20) }
  | _, _, _, _ => none

/-- The coefficient loop `for i, var in enumerate(['الثابت'] + independents)`
(src/app.py:493-502); an out-of-range access aborts the whole loop the way
the raised `IndexError` does. -/
def buildCoefs (m : FitRes) : List (ℕ × String) → Option (List CoefRow)
  | [] => some []
  | (i, v) :: rest =>
    match coefCell m i v, buildCoefs m rest with
    | some row, some l => some (row :: l)
    | _, _ => none

/-- `RegressionAnalyzer.multiple_regression`. -/
def multiple_regression (fit : List (List ℚ) → List ℚ → Option FitRes)
    (dependent : String) (independents : List String)
    (rows : List (List (Option ℚ))) : Res RegOut :=
  match fit ((cleanRows rows).map (fun r => r.drop 1))
      ((cleanRows rows).map (fun r => r.getD 0 0)) with
  | none => .err "خطأ في الانحدار: OLS fit failed"
  | some m =>
    match buildCoefs m (("الثابت" :: independents).enum) with
    | none => .err "خطأ في الانحدار: coefficient index out of range"
    | some coefs =>
      .ok { R2 := roundTo 4 m.rsquared
            R2_adj := roundTo 4 m.rsquared_adj
            F := roundTo 3 m.fvalue
            p_F := roundTo 4 m.f_pvalue
            df_model := m.df_model
            df_resid := m.df_resid
            coefficients := coefs
            sig := decide (m.f_pvalue < 1/20) }

/-! ## Chi-square test (`InferentialAnalyzer.chi_square`, src/app.py:318-389)

The input is the pair of selected categorical columns, row-major with
missing cells (`pd.crosstab` drops a row when either cell is missing).  The
contingency table is the pair-count function over the distinct row/column
categories (`uniqueFS`; pandas sorts the categories, but every quantity below
is invariant under the enumeration order).  `scipy.stats.chi2_contingency`:

* raises on an empty table — the one reachable exception, caught into an
  error record;
* its expected frequencies `R_i·C_j/n` are always positive here because
  `crosstab` only carries categories that occur (marginals are ≥ 1), so its
  zero-expected `ValueError` is unreachable;
* returns `chi2 = 0, p = 1` outright when `dof = 0`;
* applies the Yates continuity correction
  `(|O−E| − 1/2)² / E` (and `0` for a cell with `O = E`) when `dof = 1`;
* otherwise computes the plain `Σ (O−E)²/E`.

The tail probability is abstracted as `pChi dof chi2`.  The guard
`if not var1 or not var2` is the empty-string test (a missing request
parameter arrives as falsy `None`/`""`); the column-existence check of
lines 324-325 is outside this input space, which quantifies over the selected
columns themselves. -/

/-- The rows of `self.df[[var1, var2]]` kept by `pd.crosstab` (both cells
present). -/
def cleanCat (rows : List (Option String × Option String)) : List (String × String) :=
  rows.filterMap (fun r => match r with
    | (some a, some b) => some (a, b)
    | _ => none)

/-- Distinct row categories of the contingency table. -/
def rowCats (clean : List (String × String)) : List String := uniqueFS (clean.map Prod.fst)

/-- Distinct column categories of the contingency table. -/
def colCats (clean : List (String × String)) : List String := uniqueFS (clean.map Prod.snd)

/-- One cell of the contingency table: the number of rows `(a, b)`. -/
def cellCount (clean : List (String × String)) (a b : String) : ℕ :=
  ((clean.filter (fun r => r.1 = a)).filter (fun r => r.2 = b)).length

/-- A row total `R_a` of the contingency table. -/
def rowTotal (clean : List (String × String)) (a : String) : ℕ :=
  (clean.filter (fun r => r.1 = a)).length

/-- A column total `C_b` of the contingency table. -/
def colTotal (clean : List (String × String)) (b : String) : ℕ :=
  (clean.filter (fun r => r.2 = b)).length

/-- The expected frequency `R_a · C_b / n`. -/
def expectedQ (clean : List (String × String)) (a b : String) : ℚ :=
  (rowTotal clean a : ℚ) * (colTotal clean b : ℚ) / (clean.length : ℚ)

/-- One cell's contribution `(O − E)² / E` to the uncorrected statistic. -/
def chiTerm (clean : List (String × String)) (a b : String) : ℚ :=
  ((cellCount clean a b : ℚ) - expectedQ clean a b) ^ 2 / expectedQ clean a b

/-- One cell's contribution under the Yates continuity correction:
`O' = O + ½·sign(E − O)`, so `(O'−E)² = (|O−E| − ½)²` for `O ≠ E` and `0`
for `O = E`. -/
def yatesTerm (clean : List (String × String)) (a b : String) : ℚ :=
  (if (cellCount clean a b : ℚ) - expectedQ clean a b = 0 then 0
    else (|(cellCount clean a b : ℚ) - expectedQ clean a b| - 1/2) ^ 2) /
    expectedQ clean a b

/-- `dof = (rows − 1) · (cols − 1)`. -/
def dofQ (clean : List (String × String)) : ℕ :=
  ((rowCats clean).length - 1) * ((colCats clean).length - 1)

/-- The plain (uncorrected) chi-square statistic summed over the table. -/
def chi2Plain (clean : List (String × String)) : ℚ :=
  ((rowCats clean).map (fun a => ((colCats clean).map (fun b => chiTerm clean a b)).sum)).sum

/-- The Yates-corrected statistic summed over the table. -/
def chi2Yates (clean : List (String × String)) : ℚ :=
  ((rowCats clean).map (fun a => ((colCats clean).map (fun b => yatesTerm clean a b)).sum)).sum

/-- The statistic `scipy.stats.chi2_contingency` returns (default
`correction=True`). -/
def chi2Stat (clean : List (String × String)) : ℚ :=
  if dofQ clean = 0 then 0
  else if dofQ clean = 1 then chi2Yates clean
  else chi2Plain clean

/-- `min_dim = min(shape[0] - 1, shape[1] - 1)` (src/app.py:335). -/
def minDim (clean : List (String × String)) : ℕ :=
  min ((rowCats clean).length - 1) ((colCats clean).length - 1)

/-- `cramers_v = np.sqrt(chi2 / (n * min_dim)) if min_dim > 0 else 0`
(src/app.py:336). -/
def cramersV (sq : ℚ → ℚ) (clean : List (String × String)) : ℚ :=
  if 0 < minDim clean then
    sq (chi2Stat clean / ((clean.length : ℚ) * (minDim clean : ℚ)))
  else 0

/-- The effect-size buckets of src/app.py:339-346, applied to the unrounded
Cramér's V. -/
def interpretV (v : ℚ) : String :=
  if v < 1/10 then "ضعيف جداً"
  else if v < 3/10 then "صغير"
  else if v < 5/10 then "متوسط"
  else "كبير"

/-- The chi-square Result Record on the success path.  The contingency table
(`جدول_التكرارات`) is carried as one `(category, per-column counts, row
total)` triple per row category followed by the totals row. -/
structure Chi2Out where
  var1 : String
  var2 : String
  chi2 : ℚ
  df : ℕ
  p : ℚ
  cramers_v : ℚ
  sig : Bool
  sigLevel : String
  effectSize : String
  table : List (String × List ℕ × ℕ)
  sampleSize : ℕ
deriving DecidableEq, Repr

/-- `InferentialAnalyzer.chi_square`. -/
def chi_square (sq : ℚ → ℚ) (pChi : ℕ → ℚ → ℚ) (var1 var2 : String)
    (rows : List (Option String × Option String)) : Res Chi2Out :=
  if var1 = "" ∨ var2 = "" then
    .err "يجب تحديد متغيرين للاختبار"
  else if (cleanCat rows).length = 0 then
    .err "خطأ في اختبار مربع كاي: The internally computed table of expected frequencies has a zero element or the table is empty."
  else
    .ok { var1 := var1
          var2 := var2
          chi2 := roundTo 3 (chi2Stat (cleanCat rows))
          df := dofQ (cleanCat rows)
          p := roundTo 4 (if dofQ (cleanCat rows) = 0 then 1
            else pChi (dofQ (cleanCat rows)) (chi2Stat (cleanCat rows)))
          cramers_v := roundTo 3 (cramersV sq (cleanCat rows))
          sig := decide ((if dofQ (cleanCat rows) = 0 then 1
            else pChi (dofQ (cleanCat rows)) (chi2Stat (cleanCat rows))) < 1/20)
          sigLevel := getSignificanceLevel (if dofQ (cleanCat rows) = 0 then 1
            else pChi (dofQ (cleanCat rows)) (chi2Stat (cleanCat rows)))
          effectSize := interpretV (cramersV sq (cleanCat rows))
          table := ((rowCats (cleanCat rows)).map (fun a =>
              (a, (colCats (cleanCat rows)).map (fun b => cellCount (cleanCat rows) a b),
                rowTotal (cleanCat rows) a)))
            ++ [("المجموع", (colCats (cleanCat rows)).map (fun b => colTotal (cleanCat rows) b),
              (cleanCat rows).length)]
          sampleSize := (cleanCat rows).length }

theorem uniqueFSF_fuel {α : Type} [DecidableEq α] :
    ∀ (n m : ℕ) (l : List α), l.length ≤ n → l.length ≤ m →
      uniqueFSF n l = uniqueFSF m l := by
  intro n
  induction n with
  | zero =>
    intro m l hn _
    cases l with
    | nil => cases m <;> rfl
    | cons a rest => simp at hn
  | succ n ih =>
    intro m l hn hm
    cases l with
    | nil => cases m <;> rfl
    | cons a rest =>
      cases m with
      | zero => simp at hm
      | succ m =>
        show a :: uniqueFSF n (rest.filter (fun x => x ≠ a)) =
          a :: uniqueFSF m (rest.filter (fun x => x ≠ a))
        congr 1
        have hlen := List.length_filter_le (fun x => decide (x ≠ a)) rest
        exact ih m _ (le_trans hlen (Nat.lt_succ_iff.mp (Nat.lt_of_lt_of_le
          (Nat.lt_succ_self _) hn))) (le_trans hlen (Nat.lt_succ_iff.mp
          (Nat.lt_of_lt_of_le (Nat.lt_succ_self _) hm)))

@[simp] theorem uniqueFS_nil {α : Type} [DecidableEq α] : uniqueFS ([] : List α) = [] := rfl

theorem uniqueFS_cons {α : Type} [DecidableEq α] (a : α) (rest : List α) :
    uniqueFS (a :: rest) = a :: uniqueFS (rest.filter (fun x => x ≠ a)) := by
  show a :: uniqueFSF rest.length (rest.filter (fun x => x ≠ a)) = _
  congr 1
  exact uniqueFSF_fuel _ _ _ (List.length_filter_le _ _) le_rfl

/-- Induction along the recursion structure of `uniqueFS`. -/
theorem uniqueFS_induction {α : Type} [DecidableEq α] {P : List α → Prop} (h0 : P [])
    (h1 : ∀ a rest, P (rest.filter (fun x => x ≠ a)) → P (a :: rest)) : ∀ l, P l := by
  intro l
  generalize hn : l.length = n
  induction n using Nat.strong_induction_on generalizing l with
  | _ n ih =>
    cases l with
    | nil => exact h0
    | cons a rest =>
      apply h1
      apply ih (rest.filter (fun x => x ≠ a)).length ?_ _ rfl
      subst hn
      simp only [List.length_cons]
      exact Nat.lt_succ_of_le (List.length_filter_le _ _)

theorem roundHE_intCast (z : ℤ) : roundHE (z : ℚ) = z := by
  simp [roundHE]

theorem le_roundHE {z : ℤ} {x : ℚ} (h : (z : ℚ) ≤ x) : z ≤ roundHE x := by
  have hf : z ≤ ⌊x⌋ := Int.le_floor.mpr h
  unfold roundHE
  split_ifs <;> omega

theorem roundHE_le {z : ℤ} {x : ℚ} (h : x ≤ (z : ℚ)) : roundHE x ≤ z := by
  rcases eq_or_lt_of_le h with heq | hlt
  · rw [heq]; exact (roundHE_intCast z).le
  · have hf : ⌊x⌋ < z := Int.floor_lt.mpr hlt
    unfold roundHE
    split_ifs <;> omega

theorem roundHE_neg (x : ℚ) : roundHE (-x) = -roundHE x := by
  rcases eq_or_ne x (⌊x⌋ : ℚ) with hint | hnint
  · rw [hint, ← Int.cast_neg, roundHE_intCast, roundHE_intCast]
  · have h0 : (⌊x⌋ : ℚ) < x := lt_of_le_of_ne (Int.floor_le x) (Ne.symm hnint)
    have h1 : x < (⌊x⌋ : ℚ) + 1 := Int.lt_floor_add_one x
    have hfneg : ⌊-x⌋ = -⌊x⌋ - 1 := by
      rw [Int.floor_eq_iff]
      constructor
      · push_cast; linarith
      · push_cast; linarith
    set f := ⌊x⌋ with hf
    have hr : x - f < 1 := by linarith
    have hr0 : 0 < x - f := by linarith
    unfold roundHE
    rw [hfneg]
    rcases lt_trichotomy (x - (f : ℚ)) (1/2) with hc | hc | hc
    · have hc1 : ¬ (-x - ((-f - 1 : ℤ) : ℚ) < 1/2) := by push_cast; linarith
      have hc2 : (1/2 : ℚ) < -x - ((-f - 1 : ℤ) : ℚ) := by push_cast; linarith
      rw [if_pos hc, if_neg hc1, if_pos hc2]
      omega
    · have hc1 : ¬ (x - (f : ℚ) < 1/2) := by rw [hc]; exact lt_irrefl _
      have hc2 : ¬ ((1/2 : ℚ) < x - (f : ℚ)) := by rw [hc]; exact lt_irrefl _
      have hd1 : ¬ (-x - ((-f - 1 : ℤ) : ℚ) < 1/2) := by push_cast; linarith
      have hd2 : ¬ ((1/2 : ℚ) < -x - ((-f - 1 : ℤ) : ℚ)) := by push_cast; linarith
      rw [if_neg hc1, if_neg hc2, if_neg hd1, if_neg hd2]
      rcases Int.emod_two_eq f with he | ho
      · have h2f : 2 ∣ f := by omega
        have h2n : ¬ (2 ∣ (-f - 1)) := by omega
        rw [if_pos h2f, if_neg h2n]
        omega
      · have h2f : ¬ (2 ∣ f) := by omega
        have h2n : 2 ∣ (-f - 1) := by omega
        rw [if_neg h2f, if_pos h2n]
        omega
    · have hc1 : ¬ (x - (f : ℚ) < 1/2) := by linarith
      have hd1 : -x - ((-f - 1 : ℤ) : ℚ) < 1/2 := by push_cast; linarith
      rw [if_neg hc1, if_pos hc, if_pos hd1]
      omega

theorem roundTo_neg (d : ℕ) (x : ℚ) : roundTo d (-x) = -roundTo d x := by
  unfold roundTo
  rw [show -x * 10 ^ d = -(x * 10 ^ d) by ring, roundHE_neg]
  push_cast
  ring

theorem roundTo_zero (d : ℕ) : roundTo d 0 = 0 := by
  unfold roundTo
  rw [show (0 : ℚ) * 10 ^ d = ((0 : ℤ) : ℚ) by norm_num, roundHE_intCast]
  norm_num

theorem roundTo_nonneg {d : ℕ} {x : ℚ} (h : 0 ≤ x) : 0 ≤ roundTo d x := by
  unfold roundTo
  have hp : (0 : ℚ) < 10 ^ d := by positivity
  have h1 : ((0 : ℤ) : ℚ) ≤ x * 10 ^ d := by positivity
  have h2 : (0 : ℤ) ≤ roundHE (x * 10 ^ d) := le_roundHE h1
  have : (0 : ℚ) ≤ (roundHE (x * 10 ^ d) : ℚ) := by exact_mod_cast h2
  positivity

theorem roundTo_le_one {d : ℕ} {x : ℚ} (h : x ≤ 1) : roundTo d x ≤ 1 := by
  unfold roundTo
  have hp : (0 : ℚ) < 10 ^ d := by positivity
  have h1 : x * 10 ^ d ≤ ((10 ^ d : ℤ) : ℚ) := by
    push_cast
    nlinarith
  have h2 : roundHE (x * 10 ^ d) ≤ 10 ^ d := roundHE_le h1
  rw [div_le_one hp]
  exact_mod_cast h2

theorem sum_map_add {α : Type} (l : List α) (f g : α → ℚ) :
    (l.map (fun x => f x + g x)).sum = (l.map f).sum + (l.map g).sum := by
  induction l with
  | nil => simp
  | cons a t ih => simp only [List.map_cons, List.sum_cons, ih]; ring

theorem sum_sum_comm {α β : Type} (l1 : List α) (l2 : List β) (f : α → β → ℚ) :
    (l1.map (fun a => (l2.map (fun b => f a b)).sum)).sum =
      (l2.map (fun b => (l1.map (fun a => f a b)).sum)).sum := by
  induction l1 with
  | nil => simp
  | cons a t ih =>
    simp only [List.map_cons, List.sum_cons, ih, ← sum_map_add]

theorem sum_filter_not {α : Type} (l : List α) (p : α → Prop) [DecidablePred p] (f : α → ℚ) :
    ((l.filter (fun x => p x)).map f).sum + ((l.filter (fun x => ¬ p x)).map f).sum
      = (l.map f).sum := by
  induction l with
  | nil => simp
  | cons a t ih =>
    by_cases h : p a
    · simp [List.filter_cons, h, ← ih]; ring
    · simp [List.filter_cons, h, ← ih]; ring

theorem mem_uniqueFS {α : Type} [DecidableEq α] (l : List α) (x : α) :
    x ∈ uniqueFS l ↔ x ∈ l := by
  induction l using uniqueFS_induction with
  | h0 => simp
  | h1 a rest ih =>
    rw [uniqueFS_cons]
    simp only [List.mem_cons, ih, List.mem_filter, decide_eq_true_eq]
    constructor
    · rintro (h | ⟨h1, _⟩)
      · exact Or.inl h
      · exact Or.inr h1
    · rintro (h | h1)
      · exact Or.inl h
      · by_cases hx : x = a
        · exact Or.inl hx
        · exact Or.inr ⟨h1, hx⟩

theorem nodup_uniqueFS {α : Type} [DecidableEq α] (l : List α) : (uniqueFS l).Nodup := by
  induction l using uniqueFS_induction with
  | h0 => simp
  | h1 a rest ih =>
    rw [uniqueFS_cons]
    refine List.nodup_cons.mpr ⟨?_, ih⟩
    intro hmem
    have := (mem_uniqueFS _ _).mp hmem
    simp at this

theorem uniqueFS_all_eq {α : Type} [DecidableEq α] (l : List α) (b : α)
    (hne : l ≠ []) (hall : ∀ x ∈ l, x = b) : uniqueFS l = [b] := by
  cases l with
  | nil => exact absurd rfl hne
  | cons a rest =>
    rw [uniqueFS_cons]
    have ha : a = b := hall a (List.mem_cons_self a rest)
    subst ha
    have hrest : rest.filter (fun x => x ≠ a) = [] := by
      rw [List.filter_eq_nil_iff]
      intro x hx
      simp [hall x (List.mem_cons_of_mem _ hx)]
    rw [hrest, uniqueFS_nil]

theorem uniqueFS_two_blocks {α : Type} [DecidableEq α] (l1 l2 : List α) (b a : α)
    (hab : a ≠ b) (h1 : l1 ≠ []) (h2 : l2 ≠ []) (hall1 : ∀ x ∈ l1, x = b)
    (hall2 : ∀ x ∈ l2, x = a) : uniqueFS (l1 ++ l2) = [b, a] := by
  induction l1 with
  | nil => exact absurd rfl h1
  | cons c t ih =>
    have hc : c = b := hall1 c (List.mem_cons_self c t)
    subst hc
    rw [List.cons_append, uniqueFS_cons]
    have hfilter : (t ++ l2).filter (fun x => x ≠ c) = l2 := by
      rw [List.filter_append]
      have ht : t.filter (fun x => x ≠ c) = [] := by
        rw [List.filter_eq_nil_iff]
        intro x hx
        simp [hall1 x (List.mem_cons_of_mem _ hx)]
      have hl2 : l2.filter (fun x => x ≠ c) = l2 := by
        rw [List.filter_eq_self]
        intro x hx
        simp [hall2 x hx, hab]
      rw [ht, hl2, List.nil_append]
    rw [hfilter, uniqueFS_all_eq l2 a h2 hall2]

theorem uniqueFS_map_injective {α β : Type} [DecidableEq α] [DecidableEq β]
    (f : α → β) (hf : Function.Injective f) (l : List α) :
    uniqueFS (l.map f) = (uniqueFS l).map f := by
  induction l using uniqueFS_induction with
  | h0 => simp
  | h1 a rest ih =>
    rw [List.map_cons, uniqueFS_cons, uniqueFS_cons, List.map_cons]
    congr 1
    rw [← ih]
    congr 1
    rw [List.filter_map]
    congr 1
    apply List.filter_congr
    intro x _
    simp only [Function.comp_apply, ne_eq, decide_eq_true_eq, decide_eq_decide]
    exact ⟨fun h hxa => h (hxa ▸ rfl), fun h hfx => h (hf hfx)⟩

/-- Partition of a sum over a list by the distinct values of a key, for any
duplicate-free list of categories covering all keys.  This is the algebraic
content behind grouping rows by the values of a column. -/
theorem sum_partition {α κ : Type} [DecidableEq κ] (key : α → κ) (f : α → ℚ) :
    ∀ (cats : List κ) (l : List α), cats.Nodup → (∀ x ∈ l, key x ∈ cats) →
      (cats.map (fun g => ((l.filter (fun x => key x = g)).map f).sum)).sum = (l.map f).sum := by
  intro cats
  induction cats with
  | nil =>
    intro l _ hcov
    cases l with
    | nil => simp
    | cons a t => exact absurd (hcov a (List.mem_cons_self a t)) (List.not_mem_nil _)
  | cons c rest ih =>
    intro l hnd hcov
    rw [List.map_cons, List.sum_cons]
    have hnd' := List.nodup_cons.mp hnd
    have hstep : ∀ g ∈ rest, l.filter (fun x => key x = g) =
        (l.filter (fun x => ¬ (key x = c))).filter (fun x => key x = g) := by
      intro g hg
      rw [List.filter_filter]
      apply List.filter_congr
      intro x _
      by_cases hxg : key x = g
      · have hgc : g ≠ c := fun he => hnd'.1 (he ▸ hg)
        have hxc : ¬ (key x = c) := fun hc => hgc (by rw [← hxg]; exact hc)
        simp [hxg, hxc]
        exact hgc
      · simp [hxg]
    have hrw : (rest.map (fun g => ((l.filter (fun x => key x = g)).map f).sum)).sum =
        (rest.map (fun g => (((l.filter (fun x => ¬ (key x = c))).filter
          (fun x => key x = g)).map f).sum)).sum := by
      apply congrArg
      apply List.map_congr_left
      intro g hg
      rw [hstep g hg]
    rw [hrw, ih (l.filter (fun x => ¬ (key x = c))) hnd'.2 ?_]
    · exact sum_filter_not l (fun x => key x = c) f
    · intro x hx
      rw [List.mem_filter] at hx
      have hx2 := hx.2
      rcases List.mem_cons.mp (hcov x hx.1) with h | h
      · exfalso; simp [h] at hx2
      · exact h

theorem swapLab_involutive (a b : String) : Function.Involutive (swapLab a b) := by
  intro g
  unfold swapLab
  split_ifs <;> simp_all

theorem swapLab_left (a b : String) : swapLab a b a = b := by simp [swapLab]

theorem swapLab_eq_right {a b : String} (hab : a ≠ b) (g : String) :
    swapLab a b g = b ↔ g = a := by
  unfold swapLab
  split_ifs with h1 h2 <;> simp_all

theorem swapLab_eq_left {a b : String} (hab : a ≠ b) (g : String) :
    swapLab a b g = a ↔ g = b := by
  unfold swapLab
  split_ifs with h1 h2 <;> simp_all
  exact fun h => hab h.symm

theorem cleanPairs_relabel (a b : String) (rows : List (Option String × Option ℚ)) :
    cleanPairs (relabel a b rows) =
      (cleanPairs rows).map (fun r => (swapLab a b r.1, r.2)) := by
  induction rows with
  | nil => rfl
  | cons r t ih =>
    rcases r with ⟨g, v⟩
    cases g <;> cases v <;> simp [relabel, cleanPairs, List.filterMap_cons] at ih ⊢ <;>
      exact ih

theorem cleanPairs_filter_lab (b : String) (rows : List (Option String × Option ℚ)) :
    cleanPairs (rows.filter (fun r => r.1 = some b)) =
      (cleanPairs rows).filter (fun r => r.1 = b) := by
  induction rows with
  | nil => rfl
  | cons r t ih =>
    rcases r with ⟨g, v⟩
    cases g with
    | none => simpa [cleanPairs, List.filter_cons] using ih
    | some g0 =>
      cases v with
      | none =>
        by_cases hg : g0 = b <;>
          simpa [cleanPairs, List.filter_cons, hg] using ih
      | some v0 =>
        by_cases hg : g0 = b <;>
          simpa [cleanPairs, List.filter_cons, hg] using ih

theorem cleanPairs_filter_notlab (b : String) (rows : List (Option String × Option ℚ)) :
    cleanPairs (rows.filter (fun r => ¬ (r.1 = some b))) =
      (cleanPairs rows).filter (fun r => ¬ (r.1 = b)) := by
  induction rows with
  | nil => rfl
  | cons r t ih =>
    rcases r with ⟨g, v⟩
    cases g with
    | none => simpa [cleanPairs, List.filter_cons] using ih
    | some g0 =>
      cases v with
      | none =>
        by_cases hg : g0 = b <;>
          simpa [cleanPairs, List.filter_cons, hg] using ih
      | some v0 =>
        by_cases hg : g0 = b <;>
          simpa [cleanPairs, List.filter_cons, hg] using ih

theorem ttestGroups_relabel {a b : String} (hab : a ≠ b)
    (rows : List (Option String × Option ℚ)) (hg : ttestGroups rows = [a, b]) :
    ttestGroups (relabel a b rows) = [b, a] := by
  unfold ttestGroups at hg ⊢
  rw [cleanPairs_relabel, List.map_map]
  have hcomp : (Prod.fst ∘ fun r : String × ℚ => (swapLab a b r.1, r.2)) =
      (swapLab a b) ∘ Prod.fst := rfl
  rw [hcomp, ← List.map_map, uniqueFS_map_injective _ (swapLab_involutive a b).injective,
    hg]
  simp [swapLab_left, swapLab, hab]

theorem cleanPairs_append (l1 l2 : List (Option String × Option ℚ)) :
    cleanPairs (l1 ++ l2) = cleanPairs l1 ++ cleanPairs l2 :=
  List.filterMap_append l1 l2 _

theorem groupVals_relabel {a b : String} (hab : a ≠ b)
    (rows : List (Option String × Option ℚ)) :
    groupVals (cleanPairs (relabel a b rows)) b = groupVals (cleanPairs rows) a ∧
    groupVals (cleanPairs (relabel a b rows)) a = groupVals (cleanPairs rows) b := by
  rw [cleanPairs_relabel]
  unfold groupVals
  constructor
  · rw [List.filter_map]
    have h1 : ((fun r : String × ℚ => decide (r.1 = b)) ∘
        fun r : String × ℚ => (swapLab a b r.1, r.2)) =
        (fun r : String × ℚ => decide (r.1 = a)) := by
      funext r
      simp [swapLab_eq_right hab]
    rw [h1, List.map_map]
    rfl
  · rw [List.filter_map]
    have h1 : ((fun r : String × ℚ => decide (r.1 = a)) ∘
        fun r : String × ℚ => (swapLab a b r.1, r.2)) =
        (fun r : String × ℚ => decide (r.1 = b)) := by
      funext r
      simp [swapLab_eq_left hab]
    rw [h1, List.map_map]
    rfl

theorem mem_labels_of_groups {rows : List (Option String × Option ℚ)} {a b : String}
    (hg : ttestGroups rows = [a, b]) :
    ∀ g ∈ (cleanPairs rows).map Prod.fst, g = a ∨ g = b := by
  intro g hmem
  have := (mem_uniqueFS ((cleanPairs rows).map Prod.fst) g).mpr hmem
  unfold ttestGroups at hg
  rw [hg] at this
  simpa using this

theorem ttestGroups_reorder {a b : String}
    (rows : List (Option String × Option ℚ)) (hg : ttestGroups rows = [a, b]) :
    ttestGroups (reorderRows b rows) = [b, a] := by
  have hab : a ≠ b := by
    have hnd := nodup_uniqueFS ((cleanPairs rows).map Prod.fst)
    unfold ttestGroups at hg
    rw [hg] at hnd
    have := List.nodup_cons.mp hnd
    simpa using this.1
  have hamem : a ∈ (cleanPairs rows).map Prod.fst := by
    have : a ∈ uniqueFS ((cleanPairs rows).map Prod.fst) := by
      unfold ttestGroups at hg
      rw [hg]; exact List.mem_cons_self _ _
    exact (mem_uniqueFS _ _).mp this
  have hbmem : b ∈ (cleanPairs rows).map Prod.fst := by
    have : b ∈ uniqueFS ((cleanPairs rows).map Prod.fst) := by
      unfold ttestGroups at hg
      rw [hg]; simp
    exact (mem_uniqueFS _ _).mp this
  unfold ttestGroups reorderRows
  rw [cleanPairs_append, List.map_append, cleanPairs_filter_lab, cleanPairs_filter_notlab]
  apply uniqueFS_two_blocks _ _ b a hab
  · -- the b-block is nonempty
    rcases List.mem_map.mp hbmem with ⟨r, hr, hrb⟩
    have hfil : r ∈ (cleanPairs rows).filter (fun r => r.1 = b) :=
      List.mem_filter.mpr ⟨hr, by simp [hrb]⟩
    exact List.ne_nil_of_mem (List.mem_map_of_mem Prod.fst hfil)
  · -- the non-b block is nonempty: it contains a row labelled a
    rcases List.mem_map.mp hamem with ⟨r, hr, hra⟩
    have hfil : r ∈ (cleanPairs rows).filter (fun r => ¬ (r.1 = b)) :=
      List.mem_filter.mpr ⟨hr, by simp [hra, hab]⟩
    exact List.ne_nil_of_mem (List.mem_map_of_mem Prod.fst hfil)
  · intro x hx
    rcases List.mem_map.mp hx with ⟨r, hr, hrx⟩
    rw [List.mem_filter] at hr
    have : r.1 = b := by simpa using hr.2
    rw [← hrx]; exact this
  · intro x hx
    rcases List.mem_map.mp hx with ⟨r, hr, hrx⟩
    rw [List.mem_filter] at hr
    have hneb : ¬ (r.1 = b) := by simpa using hr.2
    have := mem_labels_of_groups hg r.1 (List.mem_map.mpr ⟨r, hr.1, rfl⟩)
    rcases this with h | h
    · rw [← hrx]; exact h
    · exact absurd h hneb

theorem groupVals_reorder {a b : String} (hab : a ≠ b)
    (rows : List (Option String × Option ℚ)) :
    groupVals (cleanPairs (reorderRows b rows)) b = groupVals (cleanPairs rows) b ∧
    groupVals (cleanPairs (reorderRows b rows)) a = groupVals (cleanPairs rows) a := by
  unfold reorderRows groupVals
  rw [cleanPairs_append, cleanPairs_filter_lab, cleanPairs_filter_notlab]
  constructor
  · rw [List.filter_append, List.filter_filter, List.filter_filter]
    have h1 : (cleanPairs rows).filter (fun r => decide (r.1 = b) && decide (r.1 = b)) =
        (cleanPairs rows).filter (fun r => r.1 = b) := by
      apply List.filter_congr
      intro r _
      by_cases hr : r.1 = b <;> simp [hr]
    have h2 : (cleanPairs rows).filter (fun r => decide (r.1 = b) && decide (¬ (r.1 = b))) =
        [] := by
      rw [List.filter_eq_nil_iff]
      intro r _
      by_cases hr : r.1 = b <;> simp [hr]
    rw [h1, h2, List.append_nil]
  · rw [List.filter_append, List.filter_filter, List.filter_filter]
    have h1 : (cleanPairs rows).filter (fun r => decide (r.1 = a) && decide (r.1 = b)) =
        [] := by
      rw [List.filter_eq_nil_iff]
      intro r _
      by_cases hr : r.1 = a <;> simp [hr, hab]
    have h2 : (cleanPairs rows).filter (fun r => decide (r.1 = a) && decide (¬ (r.1 = b))) =
        (cleanPairs rows).filter (fun r => r.1 = a) := by
      apply List.filter_congr
      intro r _
      by_cases hr : r.1 = a
      · simp [hr]
        exact hab
      · simp [hr]
    rw [h1, h2, List.nil_append]

theorem pooledVar_comm (g1 g2 : List ℚ) : pooledVar g2 g1 = pooledVar g1 g2 := by
  unfold pooledVar
  congr 1 <;> ring

theorem tStat_swap (sq : ℚ → ℚ) (g1 g2 : List ℚ) : tStat sq g2 g1 = -tStat sq g1 g2 := by
  unfold tStat
  rw [pooledVar_comm,
    show pooledVar g1 g2 * (1 / (g2.length : ℚ) + 1 / (g1.length : ℚ)) =
      pooledVar g1 g2 * (1 / (g1.length : ℚ) + 1 / (g2.length : ℚ)) by ring,
    show meanQ g2 - meanQ g1 = -(meanQ g1 - meanQ g2) by ring, neg_div]

theorem cohensD_swap (sq : ℚ → ℚ) (g1 g2 : List ℚ) : cohensD sq g2 g1 = -cohensD sq g1 g2 := by
  unfold cohensD
  rw [pooledVar_comm]
  split_ifs with h
  · rw [show meanQ g2 - meanQ g1 = -(meanQ g1 - meanQ g2) by ring, neg_div]
  · ring

/-- Claim C4: on every successful t-test run the reported Cohen's d is the
rounded value of `(mean1 - mean2) / pooled_std` whenever the pooled standard
deviation is nonzero, and is exactly `0` whenever the pooled standard
deviation is zero — the `pooled_std != 0` guard of src/app.py:169 replaces the
division by the defined fallback `0` instead of faulting. -/
theorem claim_C4 (sq : ℚ → ℚ) (pT : ℕ → ℚ → ℚ) (gv vv : String)
    (rows : List (Option String × Option ℚ)) (rec : TTestOut)
    (h : ttest sq pT gv vv rows = Res.ok rec) :
    (sq (pooledVar (ttestG1 rows) (ttestG2 rows)) ≠ 0 →
      rec.cohens_d = roundTo 3 ((meanQ (ttestG1 rows) - meanQ (ttestG2 rows)) /
        sq (pooledVar (ttestG1 rows) (ttestG2 rows)))) ∧
    (sq (pooledVar (ttestG1 rows) (ttestG2 rows)) = 0 → rec.cohens_d = 0) := by
  unfold ttest at h
  split_ifs at h with hguard
  injection h with h
  subst h
  refine ⟨fun hps => ?_, fun hps => ?_⟩
  · simp only [ttestRec, cohensD, if_pos hps]
  · simp only [ttestRec, cohensD, hps]
    simp [roundTo_zero]

/-- Witness for C4 at a concrete input: two groups of identical values, where
the pooled standard deviation vanishes and the reported Cohen's d is exactly
`0`. -/
theorem claim_C4_witness :
    id (pooledVar
        (ttestG1 [(some "أ", some 5), (some "أ", some 5), (some "ب", some 7), (some "ب", some 7)])
        (ttestG2 [(some "أ", some 5), (some "أ", some 5), (some "ب", some 7), (some "ب", some 7)]))
      = 0 ∧
    ∃ rec, ttest id (fun _ _ => 1) "المجموعة" "الدرجة"
        [(some "أ", some 5), (some "أ", some 5), (some "ب", some 7), (some "ب", some 7)]
      = Res.ok rec ∧ rec.cohens_d = 0 := by
  have hpv : id (pooledVar
      (ttestG1 [(some "أ", some 5), (some "أ", some 5), (some "ب", some 7), (some "ب", some 7)])
      (ttestG2 [(some "أ", some 5), (some "أ", some 5), (some "ب", some 7), (some "ب", some 7)]))
      = 0 := by
    simp +decide only [ttestG1, ttestG2, ttestGroups, cleanPairs, groupVals, uniqueFS, uniqueFSF,
      pooledVar, varS, meanQ, List.filterMap_cons, List.filter_cons, List.filter_nil,
      List.filterMap_nil, List.map_cons, List.map_nil, List.sum_cons, List.sum_nil,
      List.length_cons, List.length_nil, List.getD, id]
    norm_num
  refine ⟨hpv, ⟨_, rfl, ?_⟩⟩
  exact (claim_C4 id (fun _ _ => 1) "المجموعة" "الدرجة"
    [(some "أ", some 5), (some "أ", some 5), (some "ب", some 7), (some "ب", some 7)]
    _ rfl).2 hpv

theorem ttestRec_t (sq : ℚ → ℚ) (pT : ℕ → ℚ → ℚ) (rows : List (Option String × Option ℚ)) :
    (ttestRec sq pT rows).t = roundTo 3 (tStat sq (ttestG1 rows) (ttestG2 rows)) := rfl

theorem ttestRec_p (sq : ℚ → ℚ) (pT : ℕ → ℚ → ℚ) (rows : List (Option String × Option ℚ)) :
    (ttestRec sq pT rows).p = roundTo 4 (pT ((ttestG1 rows).length + (ttestG2 rows).length - 2)
      |tStat sq (ttestG1 rows) (ttestG2 rows)|) := rfl

theorem ttestRec_d (sq : ℚ → ℚ) (pT : ℕ → ℚ → ℚ) (rows : List (Option String × Option ℚ)) :
    (ttestRec sq pT rows).cohens_d = roundTo 3 (cohensD sq (ttestG1 rows) (ttestG2 rows)) := rfl

theorem ttestRec_g1name (sq : ℚ → ℚ) (pT : ℕ → ℚ → ℚ)
    (rows : List (Option String × Option ℚ)) :
    (ttestRec sq pT rows).group1.name = (ttestGroups rows).getD 0 "" := rfl

theorem ttestRec_g2name (sq : ℚ → ℚ) (pT : ℕ → ℚ → ℚ)
    (rows : List (Option String × Option ℚ)) :
    (ttestRec sq pT rows).group2.name = (ttestGroups rows).getD 1 "" := rfl

/-- Claim C5 is false as stated: group 1 is whichever label is *encountered
first* (`clean_df[group_var].unique()`), so swapping the two group labels in
the data leaves the reported t-statistic unchanged (here `t = -4 ≠ 4 = -t`);
only the reported group names swap. -/
theorem claim_C5_counterexample :
    ∃ rec recSwap,
      ttest id (fun _ _ => 1) "النوع" "الدرجة"
        [(some "أ", some 1), (some "أ", some 2), (some "ب", some 3), (some "ب", some 4)]
        = Res.ok rec ∧
      ttest id (fun _ _ => 1) "النوع" "الدرجة"
        (relabel "أ" "ب"
          [(some "أ", some 1), (some "أ", some 2), (some "ب", some 3), (some "ب", some 4)])
        = Res.ok recSwap ∧
      rec.t = -4 ∧ recSwap.t = -4 ∧ recSwap.t ≠ -rec.t ∧
      rec.group1.name = "أ" ∧ recSwap.group1.name = "ب" := by
  have hrel : relabel "أ" "ب"
      [(some "أ", some 1), (some "أ", some 2), (some "ب", some 3), (some "ب", some 4)] =
      [(some "ب", some 1), (some "ب", some 2), (some "أ", some 3), (some "أ", some 4)] := by
    decide
  rw [hrel]
  refine ⟨_, _, rfl, rfl, ?_, ?_, ?_, by decide, by decide⟩ <;>
    · simp +decide only [ttestRec, ttestG1, ttestG2, ttestGroups, cleanPairs, groupVals,
        mkGroupStat, uniqueFS, uniqueFSF, tStat, pooledVar, varS, meanQ,
        List.filterMap_cons, List.filter_cons, List.filter_nil, List.filterMap_nil,
        List.map_cons, List.map_nil, List.sum_cons, List.sum_nil, List.length_cons,
        List.length_nil, List.getD, id]
      norm_num [roundTo, roundHE]

/-- Claim C5 (amended): swapping the two group labels leaves the reported t,
p and Cohen's d unchanged and swaps only the reported group names; it is
exchanging which group is encountered first (reordering the rows so the other
label appears first) that negates the t-statistic while preserving p and
|Cohen's d|. -/
theorem claim_C5_amended (sq : ℚ → ℚ) (pT : ℕ → ℚ → ℚ) (gv vv a b : String)
    (rows : List (Option String × Option ℚ)) (hg : ttestGroups rows = [a, b]) :
    ∃ rec recSwap recReord,
      ttest sq pT gv vv rows = Res.ok rec ∧
      ttest sq pT gv vv (relabel a b rows) = Res.ok recSwap ∧
      ttest sq pT gv vv (reorderRows b rows) = Res.ok recReord ∧
      recSwap.t = rec.t ∧ recSwap.p = rec.p ∧ recSwap.cohens_d = rec.cohens_d ∧
      recSwap.group1.name = b ∧ recSwap.group2.name = a ∧
      recReord.t = -rec.t ∧ recReord.p = rec.p ∧ |recReord.cohens_d| = |rec.cohens_d| := by
  have hab : a ≠ b := by
    have hnd := nodup_uniqueFS ((cleanPairs rows).map Prod.fst)
    unfold ttestGroups at hg
    rw [hg] at hnd
    have := List.nodup_cons.mp hnd
    simpa using this.1
  have hgSwap := ttestGroups_relabel hab rows hg
  have hgReord := ttestGroups_reorder rows hg
  have hlen : ¬ ((ttestGroups rows).length ≠ 2) := by rw [hg]; simp
  have hlenSwap : ¬ ((ttestGroups (relabel a b rows)).length ≠ 2) := by rw [hgSwap]; simp
  have hlenReord : ¬ ((ttestGroups (reorderRows b rows)).length ≠ 2) := by
    rw [hgReord]; simp
  have hok : ttest sq pT gv vv rows = Res.ok (ttestRec sq pT rows) := by
    unfold ttest
    rw [if_neg hlen]
  have hokSwap : ttest sq pT gv vv (relabel a b rows)
      = Res.ok (ttestRec sq pT (relabel a b rows)) := by
    unfold ttest
    rw [if_neg hlenSwap]
  have hokReord : ttest sq pT gv vv (reorderRows b rows)
      = Res.ok (ttestRec sq pT (reorderRows b rows)) := by
    unfold ttest
    rw [if_neg hlenReord]
  -- the extracted value lists
  have hG1s : ttestG1 (relabel a b rows) = ttestG1 rows := by
    simp only [ttestG1, hgSwap, hg, List.getD_cons_zero]
    exact (groupVals_relabel hab rows).1
  have hG2s : ttestG2 (relabel a b rows) = ttestG2 rows := by
    simp only [ttestG2, hgSwap, hg, List.getD_cons_succ, List.getD_cons_zero]
    exact (groupVals_relabel hab rows).2
  have hG1r : ttestG1 (reorderRows b rows) = ttestG2 rows := by
    simp only [ttestG1, ttestG2, hgReord, hg, List.getD_cons_succ, List.getD_cons_zero]
    exact (groupVals_reorder hab rows).1
  have hG2r : ttestG2 (reorderRows b rows) = ttestG1 rows := by
    simp only [ttestG1, ttestG2, hgReord, hg, List.getD_cons_succ, List.getD_cons_zero]
    exact (groupVals_reorder hab rows).2
  refine ⟨_, _, _, hok, hokSwap, hokReord, ?_, ?_, ?_, ?_, ?_, ?_, ?_, ?_⟩
  · rw [ttestRec_t, ttestRec_t, hG1s, hG2s]
  · rw [ttestRec_p, ttestRec_p, hG1s, hG2s]
  · rw [ttestRec_d, ttestRec_d, hG1s, hG2s]
  · rw [ttestRec_g1name, hgSwap]; rfl
  · rw [ttestRec_g2name, hgSwap]; rfl
  · rw [ttestRec_t, ttestRec_t, hG1r, hG2r, tStat_swap, roundTo_neg]
  · rw [ttestRec_p, ttestRec_p, hG1r, hG2r, tStat_swap, abs_neg,
      Nat.add_comm (ttestG2 rows).length]
  · rw [ttestRec_d, ttestRec_d, hG1r, hG2r, cohensD_swap, roundTo_neg, abs_neg]

theorem sum_sq_dev (l : List ℚ) (c : ℚ) :
    (l.map (fun x => (x - c) ^ 2)).sum =
      (l.map (fun x => x ^ 2)).sum - 2 * c * l.sum + l.length * c ^ 2 := by
  induction l with
  | nil => simp
  | cons a t ih =>
    simp only [List.map_cons, List.sum_cons, ih, List.length_cons]
    push_cast
    ring

/-- Decomposition of one group's total deviation: for a nonempty value list
`Σ (x − c)² = Σ (x − mean)² + n·(mean − c)²`. -/
theorem sum_sq_dev_split (l : List ℚ) (hl : l ≠ []) (c : ℚ) :
    (l.map (fun x => (x - c) ^ 2)).sum =
      (l.map (fun x => (x - meanQ l) ^ 2)).sum + l.length * (meanQ l - c) ^ 2 := by
  have hn : (l.length : ℚ) ≠ 0 := by
    have := List.length_pos.mpr hl
    positivity
  rw [sum_sq_dev l c, sum_sq_dev l (meanQ l)]
  unfold meanQ
  field_simp
  ring

/-- Every group label returned by `uniqueFS` has a nonempty value list. -/
theorem groupVals_ne_nil {clean : List (String × ℚ)} {g : String}
    (hmem : g ∈ uniqueFS (clean.map Prod.fst)) : groupVals clean g ≠ [] := by
  have hg : g ∈ clean.map Prod.fst := (mem_uniqueFS _ _).mp hmem
  rcases List.mem_map.mp hg with ⟨r, hr, hrg⟩
  have : r ∈ clean.filter (fun x => x.1 = g) := List.mem_filter.mpr ⟨hr, by simp [hrg]⟩
  exact List.ne_nil_of_mem (List.mem_map_of_mem Prod.snd this)

/-- The one-way ANOVA partition of sums of squares, for the exact quantities
`anova` computes: `SS_between + SS_within = SS_total`. -/
theorem ss_partition (clean : List (String × ℚ)) :
    ssBetween clean + ssWithin clean = ssTotal clean := by
  unfold ssBetween ssWithin ssTotal
  rw [← sum_map_add]
  have hstep : ∀ g ∈ uniqueFS (clean.map Prod.fst),
      ((groupVals clean g).length : ℚ) * (meanQ (groupVals clean g) - grandMean clean) ^ 2 +
        ((groupVals clean g).map (fun x => (x - meanQ (groupVals clean g)) ^ 2)).sum =
      ((clean.filter (fun r => r.1 = g)).map
        (fun r => (r.2 - grandMean clean) ^ 2)).sum := by
    intro g hg
    have hsplit := sum_sq_dev_split (groupVals clean g) (groupVals_ne_nil hg) (grandMean clean)
    have hmm : ((clean.filter (fun r => r.1 = g)).map
        (fun r => (r.2 - grandMean clean) ^ 2)).sum =
        ((groupVals clean g).map (fun x => (x - grandMean clean) ^ 2)).sum := by
      unfold groupVals
      rw [List.map_map]
      rfl
    rw [hmm, hsplit]
    ring
  rw [List.map_congr_left hstep,
    sum_partition Prod.fst (fun r => (r.2 - grandMean clean) ^ 2)
      (uniqueFS (clean.map Prod.fst)) clean (nodup_uniqueFS _)
      (fun x hx => (mem_uniqueFS _ _).mpr (List.mem_map_of_mem Prod.fst hx))]
  rw [List.map_map]
  rfl

theorem ssWithin_nonneg (clean : List (String × ℚ)) : 0 ≤ ssWithin clean := by
  unfold ssWithin
  apply List.sum_nonneg
  intro x hx
  rcases List.mem_map.mp hx with ⟨g, _, hgx⟩
  rw [← hgx]
  apply List.sum_nonneg
  intro y hy
  rcases List.mem_map.mp hy with ⟨v, _, hvy⟩
  rw [← hvy]
  positivity

theorem ssBetween_nonneg (clean : List (String × ℚ)) : 0 ≤ ssBetween clean := by
  unfold ssBetween
  apply List.sum_nonneg
  intro x hx
  rcases List.mem_map.mp hx with ⟨g, _, hgx⟩
  rw [← hgx]
  positivity

theorem ssTotal_nonneg (clean : List (String × ℚ)) : 0 ≤ ssTotal clean := by
  unfold ssTotal
  apply List.sum_nonneg
  intro x hx
  rcases List.mem_map.mp hx with ⟨v, _, hvx⟩
  rw [← hvx]
  positivity

theorem etaSquared_mem_unit (clean : List (String × ℚ)) :
    0 ≤ etaSquared clean ∧ etaSquared clean ≤ 1 := by
  unfold etaSquared
  split_ifs with h
  · have hpos : 0 < ssTotal clean := lt_of_le_of_ne (ssTotal_nonneg clean) (Ne.symm h)
    constructor
    · exact div_nonneg (ssBetween_nonneg clean) hpos.le
    · rw [div_le_one hpos]
      have := ssWithin_nonneg clean
      have hid := ss_partition clean
      linarith
  · exact ⟨le_refl 0, by norm_num⟩

/-- Claim C6: on every successful one-way ANOVA run, the reported eta-squared
is (the 3-dp rounding of) `SS_between / SS_total` with the defined fallback
`0` when `SS_total = 0`; the computed `SS_between` plus the standard
`SS_within` equals the computed `SS_total` exactly; and the reported
eta-squared lies in `[0, 1]`. -/
theorem claim_C6 (sq : ℚ → ℚ) (fOneway : List (List ℚ) → ℚ × ℚ) (dep ind : String)
    (rows : List (Option String × Option ℚ)) (rec : AnovaOut)
    (h : anova sq fOneway dep ind rows = Res.ok rec) :
    rec.eta_squared = roundTo 3 (etaSquared (cleanPairs rows)) ∧
    ssBetween (cleanPairs rows) + ssWithin (cleanPairs rows) = ssTotal (cleanPairs rows) ∧
    0 ≤ rec.eta_squared ∧ rec.eta_squared ≤ 1 := by
  unfold anova at h
  split_ifs at h with hguard
  injection h with h
  subst h
  have hunit := etaSquared_mem_unit (cleanPairs rows)
  refine ⟨rfl, ss_partition (cleanPairs rows), ?_, ?_⟩
  · exact roundTo_nonneg hunit.1
  · exact roundTo_le_one hunit.2

/-- Witness for C6 at a concrete two-group input. -/
theorem claim_C6_witness :
    ∃ rec, anova id (fun _ => (1, 1)) "الدرجة" "المجموعة"
        [(some "أ", some 1), (some "أ", some 2), (some "ب", some 4)] = Res.ok rec ∧
      (rec.eta_squared = roundTo 3 (etaSquared (cleanPairs
          [(some "أ", some 1), (some "أ", some 2), (some "ب", some 4)])) ∧
        ssBetween (cleanPairs [(some "أ", some 1), (some "أ", some 2), (some "ب", some 4)]) +
          ssWithin (cleanPairs [(some "أ", some 1), (some "أ", some 2), (some "ب", some 4)]) =
          ssTotal (cleanPairs [(some "أ", some 1), (some "أ", some 2), (some "ب", some 4)]) ∧
        0 ≤ rec.eta_squared ∧ rec.eta_squared ≤ 1) :=
  ⟨_, rfl, claim_C6 id (fun _ => (1, 1)) "الدرجة" "المجموعة"
    [(some "أ", some 1), (some "أ", some 2), (some "ب", some 4)] _ rfl⟩

theorem pairsIdx_mem (k i j : ℕ) : (i, j) ∈ pairsIdx k ↔ i < j ∧ j < k := by
  unfold pairsIdx
  simp only [List.mem_flatMap, List.mem_map, List.mem_range, List.mem_range'_1,
    Prod.mk.injEq]
  constructor
  · rintro ⟨i', hi', j', ⟨hj1, hj2⟩, he1, he2⟩
    subst he1
    subst he2
    omega
  · rintro ⟨hij, hjk⟩
    exact ⟨i, by omega, j, by omega, rfl, rfl⟩

theorem sum_map_succ_shift (l : List ℕ) (f g : ℕ → ℕ) (h : ∀ x ∈ l, f x = g x + 1) :
    (l.map f).sum = (l.map g).sum + l.length := by
  induction l with
  | nil => simp
  | cons a t ih =>
    simp only [List.map_cons, List.sum_cons, List.length_cons]
    rw [h a (List.mem_cons_self a t), ih (fun x hx => h x (List.mem_cons_of_mem _ hx))]
    ring

theorem sum_range_pred (k : ℕ) : ((List.range k).map (fun i => k - (i + 1))).sum * 2
    = k * (k - 1) := by
  induction k with
  | zero => rfl
  | succ k ih =>
    rw [List.range_succ, List.map_append, List.sum_append]
    have hshift : ((List.range k).map (fun i => k + 1 - (i + 1))).sum
        = ((List.range k).map (fun i => k - (i + 1))).sum + k := by
      have := sum_map_succ_shift (List.range k) (fun i => k + 1 - (i + 1))
        (fun i => k - (i + 1)) (fun x hx => by
          have hxk : x < k := List.mem_range.mp hx
          show k + 1 - (x + 1) = k - (x + 1) + 1
          omega)
      simpa using this
    simp only [List.map_cons, List.map_nil, List.sum_cons, List.sum_nil]
    rw [hshift]
    cases k with
    | zero => rfl
    | succ m =>
      have h2 : (m + 1 + 1) * (m + 1 + 1 - 1) = (m + 1) * (m + 1 - 1) + 2 * (m + 1) := by
        simp only [Nat.add_sub_cancel]
        ring
      rw [h2, ← ih]
      omega

theorem pairsIdx_length (k : ℕ) : (pairsIdx k).length * 2 = k * (k - 1) := by
  unfold pairsIdx
  rw [List.length_flatMap]
  have hmap : (List.range k).map
      (List.length ∘ fun i => (List.range' (i + 1) (k - (i + 1))).map (fun j => (i, j)))
      = (List.range k).map (fun i => k - (i + 1)) := by
    apply List.map_congr_left
    intro i _
    simp only [Function.comp_apply, List.length_map, List.length_range']
  rw [hmap, sum_range_pred]

theorem pearsonR_symm (sq : ℚ → ℚ) (x y : List ℚ) (hlen : x.length = y.length) :
    pearsonR sq x y = pearsonR sq y x := by
  unfold pearsonR
  rw [← hlen]
  split_ifs with h
  · ring
  · have hz : ((x.zip y).map (fun p => (p.1 - meanQ x) * (p.2 - meanQ y))).sum =
        ((y.zip x).map (fun p => (p.1 - meanQ y) * (p.2 - meanQ x))).sum := by
      rw [← List.zip_swap x y, List.map_map]
      apply congrArg
      apply List.map_congr_left
      intro p _
      simp only [Function.comp_apply, Prod.fst_swap, Prod.snd_swap]
      ring
    rw [hz, mul_comm (sq ((x.map (fun v => (v - meanQ x) ^ 2)).sum))]

theorem getD_ne_of_nodup {l : List String} (hnd : l.Nodup) {i j : ℕ} (hij : i ≠ j)
    (hi : i < l.length) (hj : j < l.length) : l.getD i "" ≠ l.getD j "" := by
  rw [List.getD_eq_getElem l "" hi, List.getD_eq_getElem l "" hj]
  intro he
  exact hij (List.Nodup.getElem_inj_iff hnd |>.mp he)

/-- Claim C2 is false as stated: on two variables with three complete rows the
result's coefficient container is the flat list with exactly the single
record `(س, ص)` — there is no pairwise matrix and no `(v, v)` diagonal entry
equal to `1.0` with `p = 0` anywhere in the Result Record. -/
theorem claim_C2_counterexample :
    ∃ out, correlation id (fun _ _ => 0) (fun _ _ => (0, 0)) (fun _ _ => (0, 0)) ["س", "ص"]
        [[some 1, some 2], [some 2, some 1], [some 3, some 4]] = Res.ok out ∧
      out.pairs.map (fun rec => (rec.var1, rec.var2)) = [("س", "ص")] :=
  ⟨_, rfl, rfl⟩

/-- Claim C2 (amended): with at least two variables and at least three
complete rows the analyzer succeeds, emitting one flat record per unordered
pair of distinct variables (`k·(k−1)/2` of them, never a diagonal pair), and
the Pearson coefficient computation itself is symmetric in its two columns. -/
theorem claim_C2_amended (sq : ℚ → ℚ) (pP : ℕ → ℚ → ℚ) (spF kdF : List ℚ → List ℚ → ℚ × ℚ)
    (names : List String) (rows : List (List (Option ℚ))) (h2 : 2 ≤ names.length)
    (h3 : 3 ≤ (cleanRows rows).length) (hnd : names.Nodup) :
    ∃ out, correlation sq pP spF kdF names rows = Res.ok out ∧
      out.pairs.length * 2 = names.length * (names.length - 1) ∧
      (∀ rec ∈ out.pairs, rec.var1 ≠ rec.var2) ∧
      (∀ x y : List ℚ, x.length = y.length → pearsonR sq x y = pearsonR sq y x) := by
  have hguard : ¬ (2 ≤ names.length ∧ (cleanRows rows).length < 2) := by omega
  refine ⟨_, by unfold correlation; rw [if_neg hguard], ?_, ?_,
    fun x y hxy => pearsonR_symm sq x y hxy⟩
  · rw [List.length_map, pairsIdx_length]
  · intro rec hrec
    rcases List.mem_map.mp hrec with ⟨ij, hij, hrec⟩
    rcases ij with ⟨i, j⟩
    have hmem := (pairsIdx_mem names.length i j).mp hij
    rw [← hrec]
    show names.getD i "" ≠ names.getD j ""
    exact getD_ne_of_nodup hnd (by omega) (by omega) (by omega)

/-- Witness for the amended C2 at a concrete input: three variables, three
complete rows. -/
theorem claim_C2_amended_witness :
    ∃ out, correlation id (fun _ _ => 0) (fun _ _ => (0, 0)) (fun _ _ => (0, 0))
        ["س", "ص", "ع"]
        [[some 1, some 2, some 5], [some 2, some 1, some 4], [some 3, some 4, some 3]]
        = Res.ok out ∧
      out.pairs.length * 2 = 3 * (3 - 1) ∧
      (∀ rec ∈ out.pairs, rec.var1 ≠ rec.var2) ∧
      (∀ x y : List ℚ, x.length = y.length → pearsonR id x y = pearsonR id y x) :=
  claim_C2_amended id (fun _ _ => 0) (fun _ _ => (0, 0)) (fun _ _ => (0, 0))
    ["س", "ص", "ع"]
    [[some 1, some 2, some 5], [some 2, some 1, some 4], [some 3, some 4, some 3]]
    (by decide) (by decide) (by decide)

/-- Claim C9 is false as stated: with a single variable the analyzer returns
a *success* record with an empty pair list (no guard exists in the source),
and with two variables and only two complete rows it also succeeds
(`pearsonr` only raises for fewer than two rows). -/
theorem claim_C9_counterexample :
    correlation id (fun _ _ => 0) (fun _ _ => (0, 0)) (fun _ _ => (0, 0)) ["س"]
      [[some 1], [some 2], [some 3]] = Res.ok ⟨[]⟩ ∧
    ∃ out, correlation id (fun _ _ => 0) (fun _ _ => (0, 0)) (fun _ _ => (0, 0)) ["س", "ص"]
      [[some 1, some 2], [some 2, some 1]] = Res.ok out ∧ out.pairs.length = 1 :=
  ⟨rfl, ⟨_, rfl, rfl⟩⟩

/-- Claim C9 (amended): the correlation analyzer returns an error record
exactly when at least two variables are supplied and fewer than two complete
rows survive `dropna()` (the condition under which the first `pearsonr` call
raises); in every other case — including fewer than two variables, or exactly
two complete rows — it returns a success record. -/
theorem claim_C9_amended (sq : ℚ → ℚ) (pP : ℕ → ℚ → ℚ) (spF kdF : List ℚ → List ℚ → ℚ × ℚ)
    (names : List String) (rows : List (List (Option ℚ))) :
    (∃ msg, correlation sq pP spF kdF names rows = Res.err msg) ↔
      (2 ≤ names.length ∧ (cleanRows rows).length < 2) := by
  unfold correlation
  split_ifs with h
  · exact ⟨fun _ => h, fun _ => ⟨_, rfl⟩⟩
  · constructor
    · rintro ⟨m, hm⟩
      exact hm.elim
    · intro hc
      exact absurd hc h

/-- Claim C10: in every pair record the analyzer produces, the direction
field is the positive label `طردي` exactly when the (unrounded) Pearson
coefficient of the two cleaned columns is strictly positive; a coefficient of
exactly `0` is reported with the inverse label `عكسي`. -/
theorem claim_C10 (sq : ℚ → ℚ) (pP : ℕ → ℚ → ℚ) (spF kdF : List ℚ → List ℚ → ℚ × ℚ)
    (names : List String) (rows : List (List (Option ℚ))) (out : CorrOut)
    (h : correlation sq pP spF kdF names rows = Res.ok out) :
    out.pairs = (pairsIdx names.length).map
      (mkCorrPair sq pP spF kdF names (cleanRows rows)) ∧
    ∀ ij : ℕ × ℕ,
      ((mkCorrPair sq pP spF kdF names (cleanRows rows) ij).direction = "طردي" ↔
        0 < pearsonR sq (colQ (cleanRows rows) ij.1) (colQ (cleanRows rows) ij.2)) ∧
      (pearsonR sq (colQ (cleanRows rows) ij.1) (colQ (cleanRows rows) ij.2) = 0 →
        (mkCorrPair sq pP spF kdF names (cleanRows rows) ij).direction = "عكسي") := by
  unfold correlation at h
  split_ifs at h with hguard
  injection h with h
  subst h
  have hdir : ∀ ij : ℕ × ℕ, (mkCorrPair sq pP spF kdF names (cleanRows rows) ij).direction
      = if 0 < pearsonR sq (colQ (cleanRows rows) ij.1) (colQ (cleanRows rows) ij.2)
        then "طردي" else "عكسي" := fun _ => rfl
  refine ⟨rfl, fun ij => ⟨?_, ?_⟩⟩
  · rw [hdir ij]
    split_ifs with hr
    · simp [hr]
    · simp [hr]
  · intro h0
    rw [hdir ij, if_neg]
    rw [h0]
    exact lt_irrefl 0

/-- Witness for C10 at a concrete input. -/
theorem claim_C10_witness :
    ∃ out, correlation id (fun _ _ => 0) (fun _ _ => (0, 0)) (fun _ _ => (0, 0)) ["س", "ص"]
        [[some 1, some 2], [some 2, some 1], [some 3, some 6]] = Res.ok out ∧
      (out.pairs = (pairsIdx 2).map (mkCorrPair id (fun _ _ => 0) (fun _ _ => (0, 0))
          (fun _ _ => (0, 0)) ["س", "ص"]
          (cleanRows [[some 1, some 2], [some 2, some 1], [some 3, some 6]])) ∧
        ∀ ij : ℕ × ℕ,
          ((mkCorrPair id (fun _ _ => 0) (fun _ _ => (0, 0)) (fun _ _ => (0, 0)) ["س", "ص"]
              (cleanRows [[some 1, some 2], [some 2, some 1], [some 3, some 6]]) ij).direction
              = "طردي" ↔
            0 < pearsonR id (colQ (cleanRows [[some 1, some 2], [some 2, some 1],
              [some 3, some 6]]) ij.1)
              (colQ (cleanRows [[some 1, some 2], [some 2, some 1], [some 3, some 6]]) ij.2)) ∧
          (pearsonR id (colQ (cleanRows [[some 1, some 2], [some 2, some 1],
              [some 3, some 6]]) ij.1)
              (colQ (cleanRows [[some 1, some 2], [some 2, some 1], [some 3, some 6]]) ij.2)
              = 0 →
            (mkCorrPair id (fun _ _ => 0) (fun _ _ => (0, 0)) (fun _ _ => (0, 0)) ["س", "ص"]
              (cleanRows [[some 1, some 2], [some 2, some 1], [some 3, some 6]]) ij).direction
              = "عكسي")) :=
  ⟨_, rfl, claim_C10 id (fun _ _ => 0) (fun _ _ => (0, 0)) (fun _ _ => (0, 0)) ["س", "ص"]
    [[some 1, some 2], [some 2, some 1], [some 3, some 6]] _ rfl⟩

/-- Claim C8: the Cronbach's alpha analyzer returns an error record exactly
when fewer than 2 item columns are given, fewer than 3 complete cases remain
after dropping missing values, or the variance of the row-sum total score is
zero (the `total_variance == 0` guard of src/app.py:414 precedes the
division, so the degenerate case is an error record, never a fault); in every
other case it returns a success record carrying the numeric alpha. -/
theorem claim_C8 (sq : ℚ → ℚ) (names : List String) (rows : List (List (Option ℚ)))
    (hnd : names.Nodup) :
    ((∃ msg, cronbach_alpha sq names rows = Res.err msg) ↔
      (names.length < 2 ∨ (cleanRows rows).length < 3 ∨ totalVarQ (cleanRows rows) = 0)) ∧
    (¬ (names.length < 2 ∨ (cleanRows rows).length < 3 ∨ totalVarQ (cleanRows rows) = 0) →
      ∃ rec, cronbach_alpha sq names rows = Res.ok rec ∧
        rec.alpha = roundTo 3 (alphaQ names.length (cleanRows rows))) := by
  unfold cronbach_alpha
  split_ifs with h1 h2 h3
  · exact ⟨⟨fun _ => Or.inl h1, fun _ => ⟨_, rfl⟩⟩, fun hc => absurd (Or.inl h1) hc⟩
  · exact ⟨⟨fun _ => Or.inr (Or.inl h2), fun _ => ⟨_, rfl⟩⟩,
      fun hc => absurd (Or.inr (Or.inl h2)) hc⟩
  · exact ⟨⟨fun _ => Or.inr (Or.inr h3), fun _ => ⟨_, rfl⟩⟩,
      fun hc => absurd (Or.inr (Or.inr h3)) hc⟩
  · refine ⟨⟨fun hm => ?_, fun hc => ?_⟩, fun _ => ⟨_, rfl, rfl⟩⟩
    · rcases hm with ⟨m, hm⟩
      exact hm.elim
    · rcases hc with h | h | h
      · exact absurd h h1
      · exact absurd h h2
      · exact absurd h h3

/-- Witness for C8 at a concrete input: two items, three complete cases,
nonzero total variance, so the analyzer succeeds with a numeric alpha. -/
theorem claim_C8_witness :
    ((∃ msg, cronbach_alpha id ["س", "ص"]
        [[some 1, some 2], [some 2, some 1], [some 1, some 1]] = Res.err msg) ↔
      (["س", "ص"].length < 2 ∨
        (cleanRows [[some 1, some 2], [some 2, some 1], [some 1, some 1]]).length < 3 ∨
        totalVarQ (cleanRows [[some 1, some 2], [some 2, some 1], [some 1, some 1]]) = 0)) ∧
    (¬ (["س", "ص"].length < 2 ∨
        (cleanRows [[some 1, some 2], [some 2, some 1], [some 1, some 1]]).length < 3 ∨
        totalVarQ (cleanRows [[some 1, some 2], [some 2, some 1], [some 1, some 1]]) = 0) →
      ∃ rec, cronbach_alpha id ["س", "ص"]
          [[some 1, some 2], [some 2, some 1], [some 1, some 1]] = Res.ok rec ∧
        rec.alpha = roundTo 3 (alphaQ 2
          (cleanRows [[some 1, some 2], [some 2, some 1], [some 1, some 1]]))) :=
  claim_C8 id ["س", "ص"] [[some 1, some 2], [some 2, some 1], [some 1, some 1]] (by decide)

theorem coefCell_name (m : FitRes) (i : ℕ) (v : String) (row : CoefRow)
    (h : coefCell m i v = some row) : row.name = v := by
  unfold coefCell at h
  split at h
  · injection h with h
    rw [← h]
  · exact absurd h (by simp)

theorem buildCoefs_names (m : FitRes) :
    ∀ (l : List (ℕ × String)) (r : List CoefRow),
      buildCoefs m l = some r → r.map (fun c => c.name) = l.map Prod.snd := by
  intro l
  induction l with
  | nil =>
    intro r h
    unfold buildCoefs at h
    injection h with h
    rw [← h]
    rfl
  | cons a rest ih =>
    intro r h
    rcases a with ⟨i, v⟩
    unfold buildCoefs at h
    split at h
    · rename_i row l hcell hrest
      injection h with h
      rw [← h, List.map_cons, List.map_cons, coefCell_name m i v row hcell, ih l hrest]
    · exact absurd h (by simp)

/-- Claim C3: every successful multiple-regression run reports exactly
`k + 1` coefficient rows for `k` caller-supplied independents, the first row
being the intercept (`الثابت`) and rows `2..k+1` carrying the independents'
names in exactly the caller's order. -/
theorem claim_C3 (fit : List (List ℚ) → List ℚ → Option FitRes) (dependent : String)
    (independents : List String) (rows : List (List (Option ℚ))) (out : RegOut)
    (h : multiple_regression fit dependent independents rows = Res.ok out) :
    out.coefficients.length = independents.length + 1 ∧
    out.coefficients.map (fun c => c.name) = "الثابت" :: independents := by
  unfold multiple_regression at h
  split at h
  · exact absurd h (by simp)
  · rename_i m hm
    split at h
    · exact absurd h (by simp)
    · rename_i coefs hcoefs
      injection h with h
      rw [← h]
      have hnames := buildCoefs_names m (("الثابت" :: independents).enum) coefs hcoefs
      rw [List.enum_map_snd] at hnames
      constructor
      · have hlen := congrArg List.length hnames
        simpa using hlen
      · exact hnames

/-- Witness for C3 at a concrete input: one independent, so two coefficient
rows, intercept first. -/
theorem claim_C3_witness :
    ∃ out, multiple_regression
        (fun _ _ => some ⟨fun _ => some 0, fun _ => some 0, fun _ => some 0, fun _ => some 0,
          0, 0, 0, 0, 0, 0⟩) "ص" ["س"] [[some 1, some 2]] = Res.ok out ∧
      (out.coefficients.length = ["س"].length + 1 ∧
        out.coefficients.map (fun c => c.name) = "الثابت" :: ["س"]) :=
  ⟨_, rfl, claim_C3
    (fun _ _ => some ⟨fun _ => some 0, fun _ => some 0, fun _ => some 0, fun _ => some 0,
      0, 0, 0, 0, 0, 0⟩) "ص" ["س"] [[some 1, some 2]] _ rfl⟩

theorem sum_ones {α : Type} (l : List α) : (l.map (fun _ => (1 : ℚ))).sum = (l.length : ℚ) := by
  induction l with
  | nil => simp
  | cons a t ih => simp [ih]; ring

theorem sum_map_const {α : Type} (l : List α) (c : ℚ) :
    (l.map (fun _ => c)).sum = (l.length : ℚ) * c := by
  induction l with
  | nil => simp
  | cons a t ih =>
    simp only [List.map_cons, List.sum_cons, ih, List.length_cons]
    push_cast
    ring

/-- Row marginal of the contingency table: `Σ_{b ∈ colCats} O_ab = R_a`. -/
theorem sum_cellCount_row (clean : List (String × String)) (a : String) :
    ((colCats clean).map (fun b => (cellCount clean a b : ℚ))).sum = (rowTotal clean a : ℚ) := by
  have hcov : ∀ x ∈ clean.filter (fun r => r.1 = a), x.2 ∈ colCats clean := by
    intro x hx
    exact (mem_uniqueFS _ _).mpr (List.mem_map_of_mem Prod.snd (List.mem_of_mem_filter hx))
  have hpart := sum_partition Prod.snd (fun _ => (1 : ℚ)) (colCats clean)
    (clean.filter (fun r => r.1 = a)) (nodup_uniqueFS _) hcov
  have h1 : ((colCats clean).map (fun b => (cellCount clean a b : ℚ))).sum
      = ((colCats clean).map (fun g => (((clean.filter (fun r => r.1 = a)).filter
          (fun x => x.2 = g)).map (fun _ => (1 : ℚ))).sum)).sum := by
    apply congrArg
    apply List.map_congr_left
    intro b _
    rw [sum_ones]
    rfl
  rw [h1, hpart, sum_ones]
  rfl

theorem cellCount_swap (clean : List (String × String)) (a b : String) :
    cellCount clean a b
      = ((clean.filter (fun r => r.2 = b)).filter (fun r => r.1 = a)).length := by
  unfold cellCount
  rw [List.filter_filter, List.filter_filter]
  apply congrArg
  apply List.filter_congr
  intro r _
  by_cases h1 : r.1 = a <;> by_cases h2 : r.2 = b <;> simp [h1, h2]

/-- Column marginal of the contingency table: `Σ_{a ∈ rowCats} O_ab = C_b`. -/
theorem sum_cellCount_col (clean : List (String × String)) (b : String) :
    ((rowCats clean).map (fun a => (cellCount clean a b : ℚ))).sum = (colTotal clean b : ℚ) := by
  have hcov : ∀ x ∈ clean.filter (fun r => r.2 = b), x.1 ∈ rowCats clean := by
    intro x hx
    exact (mem_uniqueFS _ _).mpr (List.mem_map_of_mem Prod.fst (List.mem_of_mem_filter hx))
  have hpart := sum_partition Prod.fst (fun _ => (1 : ℚ)) (rowCats clean)
    (clean.filter (fun r => r.2 = b)) (nodup_uniqueFS _) hcov
  have h1 : ((rowCats clean).map (fun a => (cellCount clean a b : ℚ))).sum
      = ((rowCats clean).map (fun g => (((clean.filter (fun r => r.2 = b)).filter
          (fun x => x.1 = g)).map (fun _ => (1 : ℚ))).sum)).sum := by
    apply congrArg
    apply List.map_congr_left
    intro a _
    rw [sum_ones, cellCount_swap]
  rw [h1, hpart, sum_ones]
  rfl

/-- The row totals sum to the sample size. -/
theorem sum_rowTotal (clean : List (String × String)) :
    ((rowCats clean).map (fun a => (rowTotal clean a : ℚ))).sum = (clean.length : ℚ) := by
  have hcov : ∀ x ∈ clean, x.1 ∈ rowCats clean := by
    intro x hx
    exact (mem_uniqueFS _ _).mpr (List.mem_map_of_mem Prod.fst hx)
  have hpart := sum_partition Prod.fst (fun _ => (1 : ℚ)) (rowCats clean)
    clean (nodup_uniqueFS _) hcov
  have h1 : ((rowCats clean).map (fun a => (rowTotal clean a : ℚ))).sum
      = ((rowCats clean).map (fun g => ((clean.filter (fun x => x.1 = g)).map
          (fun _ => (1 : ℚ))).sum)).sum := by
    apply congrArg
    apply List.map_congr_left
    intro a _
    rw [sum_ones]
    rfl
  rw [h1, hpart, sum_ones]

/-- The column totals sum to the sample size. -/
theorem sum_colTotal (clean : List (String × String)) :
    ((colCats clean).map (fun b => (colTotal clean b : ℚ))).sum = (clean.length : ℚ) := by
  have hcov : ∀ x ∈ clean, x.2 ∈ colCats clean := by
    intro x hx
    exact (mem_uniqueFS _ _).mpr (List.mem_map_of_mem Prod.snd hx)
  have hpart := sum_partition Prod.snd (fun _ => (1 : ℚ)) (colCats clean)
    clean (nodup_uniqueFS _) hcov
  have h1 : ((colCats clean).map (fun b => (colTotal clean b : ℚ))).sum
      = ((colCats clean).map (fun g => ((clean.filter (fun x => x.2 = g)).map
          (fun _ => (1 : ℚ))).sum)).sum := by
    apply congrArg
    apply List.map_congr_left
    intro b _
    rw [sum_ones]
    rfl
  rw [h1, hpart, sum_ones]

theorem rowTotal_pos {clean : List (String × String)} {a : String}
    (ha : a ∈ rowCats clean) : 1 ≤ rowTotal clean a := by
  rcases List.mem_map.mp ((mem_uniqueFS _ _).mp ha) with ⟨r, hr, hra⟩
  have : r ∈ clean.filter (fun x => x.1 = a) := List.mem_filter.mpr ⟨hr, by simp [hra]⟩
  exact List.length_pos.mpr (List.ne_nil_of_mem this)

theorem colTotal_pos {clean : List (String × String)} {b : String}
    (hb : b ∈ colCats clean) : 1 ≤ colTotal clean b := by
  rcases List.mem_map.mp ((mem_uniqueFS _ _).mp hb) with ⟨r, hr, hrb⟩
  have : r ∈ clean.filter (fun x => x.2 = b) := List.mem_filter.mpr ⟨hr, by simp [hrb]⟩
  exact List.length_pos.mpr (List.ne_nil_of_mem this)

theorem cellCount_le_rowTotal (clean : List (String × String)) (a b : String) :
    cellCount clean a b ≤ rowTotal clean a :=
  List.length_filter_le _ _

theorem cellCount_le_colTotal (clean : List (String × String)) (a b : String) :
    cellCount clean a b ≤ colTotal clean b := by
  rw [cellCount_swap]
  exact List.length_filter_le _ _

theorem expectedQ_pos {clean : List (String × String)} {a b : String}
    (ha : a ∈ rowCats clean) (hb : b ∈ colCats clean) (hn : clean ≠ []) :
    0 < expectedQ clean a b := by
  unfold expectedQ
  have h1 : (0 : ℚ) < rowTotal clean a := by
    have := rowTotal_pos ha
    exact_mod_cast Nat.lt_of_lt_of_le Nat.zero_lt_one this
  have h2 : (0 : ℚ) < colTotal clean b := by
    have := colTotal_pos hb
    exact_mod_cast Nat.lt_of_lt_of_le Nat.zero_lt_one this
  have h3 : (0 : ℚ) < clean.length := by
    have := List.length_pos.mpr hn
    exact_mod_cast this
  positivity

theorem sum_map_mulQ {α : Type} (l : List α) (c : ℚ) (f : α → ℚ) :
    (l.map (fun x => c * f x)).sum = c * (l.map f).sum := by
  induction l with
  | nil => simp
  | cons a t ih => simp only [List.map_cons, List.sum_cons, ih]; ring

theorem sum_map_negQ {α : Type} (l : List α) (f : α → ℚ) :
    (l.map (fun x => -f x)).sum = -(l.map f).sum := by
  induction l with
  | nil => simp
  | cons a t ih => simp only [List.map_cons, List.sum_cons, ih]; ring

theorem rowCats_ne_nil {clean : List (String × String)} (hn : clean ≠ []) :
    rowCats clean ≠ [] := by
  cases clean with
  | nil => exact absurd rfl hn
  | cons r t =>
    unfold rowCats
    rw [List.map_cons, uniqueFS_cons]
    exact List.cons_ne_nil _ _

theorem colCats_ne_nil {clean : List (String × String)} (hn : clean ≠ []) :
    colCats clean ≠ [] := by
  cases clean with
  | nil => exact absurd rfl hn
  | cons r t =>
    unfold colCats
    rw [List.map_cons, uniqueFS_cons]
    exact List.cons_ne_nil _ _

theorem chiTerm_nonneg {clean : List (String × String)} {a b : String}
    (hE : 0 < expectedQ clean a b) : 0 ≤ chiTerm clean a b := by
  unfold chiTerm
  positivity

theorem yatesTerm_nonneg {clean : List (String × String)} {a b : String}
    (hE : 0 < expectedQ clean a b) : 0 ≤ yatesTerm clean a b := by
  unfold yatesTerm
  apply div_nonneg _ hE.le
  split_ifs
  · exact le_refl 0
  · positivity

theorem chi2Plain_nonneg (clean : List (String × String)) (hn : clean ≠ []) :
    0 ≤ chi2Plain clean := by
  unfold chi2Plain
  apply List.sum_nonneg
  intro x hx
  rcases List.mem_map.mp hx with ⟨a, ha, hax⟩
  rw [← hax]
  apply List.sum_nonneg
  intro y hy
  rcases List.mem_map.mp hy with ⟨b, hb, hby⟩
  rw [← hby]
  exact chiTerm_nonneg (expectedQ_pos ha hb hn)

theorem chi2Yates_nonneg (clean : List (String × String)) (hn : clean ≠ []) :
    0 ≤ chi2Yates clean := by
  unfold chi2Yates
  apply List.sum_nonneg
  intro x hx
  rcases List.mem_map.mp hx with ⟨a, ha, hax⟩
  rw [← hax]
  apply List.sum_nonneg
  intro y hy
  rcases List.mem_map.mp hy with ⟨b, hb, hby⟩
  rw [← hby]
  exact yatesTerm_nonneg (expectedQ_pos ha hb hn)

theorem chiTerm_expand {clean : List (String × String)} {a b : String}
    (hE : expectedQ clean a b ≠ 0) :
    chiTerm clean a b = (cellCount clean a b : ℚ) ^ 2 / expectedQ clean a b
      - 2 * (cellCount clean a b : ℚ) + expectedQ clean a b := by
  unfold chiTerm
  field_simp
  ring

/-- `Σ_{b ∈ colCats} E_ab = R_a`. -/
theorem sum_expected_row (clean : List (String × String)) (a : String) (hn : clean ≠ []) :
    ((colCats clean).map (fun b => expectedQ clean a b)).sum = (rowTotal clean a : ℚ) := by
  have hnQ : (clean.length : ℚ) ≠ 0 := by
    have := List.length_pos.mpr hn
    positivity
  unfold expectedQ
  have hfun : (fun b => (rowTotal clean a : ℚ) * (colTotal clean b : ℚ) / (clean.length : ℚ))
      = fun b => ((rowTotal clean a : ℚ) / (clean.length : ℚ)) * (colTotal clean b : ℚ) := by
    funext b
    ring
  rw [hfun, sum_map_mulQ, sum_colTotal]
  field_simp

/-- `Σ_{a ∈ rowCats} E_ab = C_b`. -/
theorem sum_expected_col (clean : List (String × String)) (b : String) (hn : clean ≠ []) :
    ((rowCats clean).map (fun a => expectedQ clean a b)).sum = (colTotal clean b : ℚ) := by
  have hnQ : (clean.length : ℚ) ≠ 0 := by
    have := List.length_pos.mpr hn
    positivity
  unfold expectedQ
  have hfun : (fun a => (rowTotal clean a : ℚ) * (colTotal clean b : ℚ) / (clean.length : ℚ))
      = fun a => ((colTotal clean b : ℚ) / (clean.length : ℚ)) * (rowTotal clean a : ℚ) := by
    funext a
    ring
  rw [hfun, sum_map_mulQ, sum_rowTotal]
  field_simp

/-- Per row category, `Σ_b (O−E)²/E ≤ n − R_a`: the heart of the classical
bound `χ² ≤ n·(min dim − 1)`. -/
theorem chiTerm_rowsum_le {clean : List (String × String)} {a : String}
    (ha : a ∈ rowCats clean) (hn : clean ≠ []) :
    ((colCats clean).map (fun b => chiTerm clean a b)).sum
      ≤ (clean.length : ℚ) - (rowTotal clean a : ℚ) := by
  have hnQ : (0 : ℚ) < (clean.length : ℚ) := by
    have := List.length_pos.mpr hn
    exact_mod_cast this
  have hR : (0 : ℚ) < (rowTotal clean a : ℚ) := by
    have := rowTotal_pos ha
    exact_mod_cast Nat.lt_of_lt_of_le Nat.zero_lt_one this
  have hterm : ∀ b ∈ colCats clean, chiTerm clean a b ≤
      ((clean.length : ℚ) / (rowTotal clean a : ℚ)) * (cellCount clean a b : ℚ) +
        (-2 * (cellCount clean a b : ℚ) + expectedQ clean a b) := by
    intro b hb
    have hE := expectedQ_pos ha hb hn
    have hC : (0 : ℚ) < (colTotal clean b : ℚ) := by
      have := colTotal_pos hb
      exact_mod_cast Nat.lt_of_lt_of_le Nat.zero_lt_one this
    have hOC : (cellCount clean a b : ℚ) ≤ (colTotal clean b : ℚ) := by
      exact_mod_cast cellCount_le_colTotal clean a b
    have hO : (0 : ℚ) ≤ (cellCount clean a b : ℚ) := by positivity
    have hkey : (cellCount clean a b : ℚ) ^ 2 / expectedQ clean a b
        ≤ ((clean.length : ℚ) / (rowTotal clean a : ℚ)) * (cellCount clean a b : ℚ) := by
      rw [div_le_iff hE]
      unfold expectedQ
      rw [show (clean.length : ℚ) / (rowTotal clean a : ℚ) * (cellCount clean a b : ℚ) *
          ((rowTotal clean a : ℚ) * (colTotal clean b : ℚ) / (clean.length : ℚ))
          = (cellCount clean a b : ℚ) * (colTotal clean b : ℚ) *
            (((clean.length : ℚ) / (clean.length : ℚ)) *
              ((rowTotal clean a : ℚ) / (rowTotal clean a : ℚ))) by ring,
        div_self hnQ.ne', div_self hR.ne', mul_one, mul_one]
      nlinarith
    rw [chiTerm_expand hE.ne']
    linarith
  calc ((colCats clean).map (fun b => chiTerm clean a b)).sum
      ≤ ((colCats clean).map (fun b =>
          ((clean.length : ℚ) / (rowTotal clean a : ℚ)) * (cellCount clean a b : ℚ) +
            (-2 * (cellCount clean a b : ℚ) + expectedQ clean a b))).sum :=
        List.sum_le_sum hterm
    _ = ((clean.length : ℚ) / (rowTotal clean a : ℚ)) * (rowTotal clean a : ℚ) +
          (-2 * (rowTotal clean a : ℚ) + (rowTotal clean a : ℚ)) := by
        rw [sum_map_add, sum_map_add]
        have h1 : ((colCats clean).map (fun b =>
            ((clean.length : ℚ) / (rowTotal clean a : ℚ)) * (cellCount clean a b : ℚ))).sum
            = ((clean.length : ℚ) / (rowTotal clean a : ℚ)) * (rowTotal clean a : ℚ) := by
          rw [sum_map_mulQ]
          rw [show ((colCats clean).map (fun b => (cellCount clean a b : ℚ)))
            = (colCats clean).map (fun b => (cellCount clean a b : ℚ)) from rfl,
            sum_cellCount_row]
        have h2 : ((colCats clean).map (fun b => -2 * (cellCount clean a b : ℚ))).sum
            = -2 * (rowTotal clean a : ℚ) := by
          rw [sum_map_mulQ, sum_cellCount_row]
        rw [h1, h2, sum_expected_row clean a hn]
    _ = (clean.length : ℚ) - (rowTotal clean a : ℚ) := by
        field_simp
        ring

/-- Per column category, `Σ_a (O−E)²/E ≤ n − C_b`. -/
theorem chiTerm_colsum_le {clean : List (String × String)} {b : String}
    (hb : b ∈ colCats clean) (hn : clean ≠ []) :
    ((rowCats clean).map (fun a => chiTerm clean a b)).sum
      ≤ (clean.length : ℚ) - (colTotal clean b : ℚ) := by
  have hnQ : (0 : ℚ) < (clean.length : ℚ) := by
    have := List.length_pos.mpr hn
    exact_mod_cast this
  have hC : (0 : ℚ) < (colTotal clean b : ℚ) := by
    have := colTotal_pos hb
    exact_mod_cast Nat.lt_of_lt_of_le Nat.zero_lt_one this
  have hterm : ∀ a ∈ rowCats clean, chiTerm clean a b ≤
      ((clean.length : ℚ) / (colTotal clean b : ℚ)) * (cellCount clean a b : ℚ) +
        (-2 * (cellCount clean a b : ℚ) + expectedQ clean a b) := by
    intro a ha
    have hE := expectedQ_pos ha hb hn
    have hR : (0 : ℚ) < (rowTotal clean a : ℚ) := by
      have := rowTotal_pos ha
      exact_mod_cast Nat.lt_of_lt_of_le Nat.zero_lt_one this
    have hOR : (cellCount clean a b : ℚ) ≤ (rowTotal clean a : ℚ) := by
      exact_mod_cast cellCount_le_rowTotal clean a b
    have hO : (0 : ℚ) ≤ (cellCount clean a b : ℚ) := by positivity
    have hkey : (cellCount clean a b : ℚ) ^ 2 / expectedQ clean a b
        ≤ ((clean.length : ℚ) / (colTotal clean b : ℚ)) * (cellCount clean a b : ℚ) := by
      rw [div_le_iff hE]
      unfold expectedQ
      rw [show (clean.length : ℚ) / (colTotal clean b : ℚ) * (cellCount clean a b : ℚ) *
          ((rowTotal clean a : ℚ) * (colTotal clean b : ℚ) / (clean.length : ℚ))
          = (cellCount clean a b : ℚ) * (rowTotal clean a : ℚ) *
            (((clean.length : ℚ) / (clean.length : ℚ)) *
              ((colTotal clean b : ℚ) / (colTotal clean b : ℚ))) by ring,
        div_self hnQ.ne', div_self hC.ne', mul_one, mul_one]
      nlinarith
    rw [chiTerm_expand hE.ne']
    linarith
  calc ((rowCats clean).map (fun a => chiTerm clean a b)).sum
      ≤ ((rowCats clean).map (fun a =>
          ((clean.length : ℚ) / (colTotal clean b : ℚ)) * (cellCount clean a b : ℚ) +
            (-2 * (cellCount clean a b : ℚ) + expectedQ clean a b))).sum :=
        List.sum_le_sum hterm
    _ = ((clean.length : ℚ) / (colTotal clean b : ℚ)) * (colTotal clean b : ℚ) +
          (-2 * (colTotal clean b : ℚ) + (colTotal clean b : ℚ)) := by
        rw [sum_map_add, sum_map_add]
        have h1 : ((rowCats clean).map (fun a =>
            ((clean.length : ℚ) / (colTotal clean b : ℚ)) * (cellCount clean a b : ℚ))).sum
            = ((clean.length : ℚ) / (colTotal clean b : ℚ)) * (colTotal clean b : ℚ) := by
          rw [sum_map_mulQ, sum_cellCount_col]
        have h2 : ((rowCats clean).map (fun a => -2 * (cellCount clean a b : ℚ))).sum
            = -2 * (colTotal clean b : ℚ) := by
          rw [sum_map_mulQ, sum_cellCount_col]
        rw [h1, h2, sum_expected_col clean b hn]
    _ = (clean.length : ℚ) - (colTotal clean b : ℚ) := by
        field_simp
        ring

/-- The classical bound for the uncorrected statistic:
`χ² ≤ n · min(rows − 1, cols − 1)`. -/
theorem chi2Plain_le_min (clean : List (String × String)) (hn : clean ≠ []) :
    chi2Plain clean ≤ (clean.length : ℚ) * (minDim clean : ℚ) := by
  have hr1 : 1 ≤ (rowCats clean).length := List.length_pos.mpr (rowCats_ne_nil hn)
  have hc1 : 1 ≤ (colCats clean).length := List.length_pos.mpr (colCats_ne_nil hn)
  have hrow : chi2Plain clean ≤ (clean.length : ℚ) * (((rowCats clean).length : ℚ) - 1) := by
    unfold chi2Plain
    calc ((rowCats clean).map (fun a => ((colCats clean).map
          (fun b => chiTerm clean a b)).sum)).sum
        ≤ ((rowCats clean).map (fun a =>
            (clean.length : ℚ) + -(rowTotal clean a : ℚ))).sum := by
          apply List.sum_le_sum
          intro a ha
          have := chiTerm_rowsum_le ha hn
          linarith
      _ = ((rowCats clean).length : ℚ) * (clean.length : ℚ) - (clean.length : ℚ) := by
          rw [sum_map_add, sum_map_const, sum_map_negQ, sum_rowTotal]
          ring
      _ = (clean.length : ℚ) * (((rowCats clean).length : ℚ) - 1) := by ring
  have hcol : chi2Plain clean ≤ (clean.length : ℚ) * (((colCats clean).length : ℚ) - 1) := by
    unfold chi2Plain
    rw [sum_sum_comm]
    calc ((colCats clean).map (fun b => ((rowCats clean).map
          (fun a => chiTerm clean a b)).sum)).sum
        ≤ ((colCats clean).map (fun b =>
            (clean.length : ℚ) + -(colTotal clean b : ℚ))).sum := by
          apply List.sum_le_sum
          intro b hb
          have := chiTerm_colsum_le hb hn
          linarith
      _ = ((colCats clean).length : ℚ) * (clean.length : ℚ) - (clean.length : ℚ) := by
          rw [sum_map_add, sum_map_const, sum_map_negQ, sum_colTotal]
          ring
      _ = (clean.length : ℚ) * (((colCats clean).length : ℚ) - 1) := by ring
  have hmin : (minDim clean : ℚ)
      = min (((rowCats clean).length : ℚ) - 1) (((colCats clean).length : ℚ) - 1) := by
    unfold minDim
    rw [Nat.cast_min, Nat.cast_sub hr1, Nat.cast_sub hc1, Nat.cast_one]
  rw [hmin]
  rcases min_cases (((rowCats clean).length : ℚ) - 1) (((colCats clean).length : ℚ) - 1)
    with ⟨heq, _⟩ | ⟨heq, _⟩ <;> rw [heq]
  · exact hrow
  · exact hcol

set_option maxHeartbeats 1000000 in
/-- In a 2×2 table the Yates-corrected statistic also satisfies
`χ²_Y ≤ n` (`min dim = 1` there). -/
theorem chi2Yates_le_2x2 (clean : List (String × String)) (hn : clean ≠ [])
    (a1 a2 b1 b2 : String) (hr : rowCats clean = [a1, a2]) (hc : colCats clean = [b1, b2]) :
    chi2Yates clean ≤ (clean.length : ℚ) := by
  have hnQ : (0 : ℚ) < (clean.length : ℚ) := by
    have := List.length_pos.mpr hn
    exact_mod_cast this
  have ha1 : a1 ∈ rowCats clean := by rw [hr]; exact List.mem_cons_self _ _
  have ha2 : a2 ∈ rowCats clean := by rw [hr]; simp
  have hb1 : b1 ∈ colCats clean := by rw [hc]; exact List.mem_cons_self _ _
  have hb2 : b2 ∈ colCats clean := by rw [hc]; simp
  have hE11 := expectedQ_pos ha1 hb1 hn
  have hE12 := expectedQ_pos ha1 hb2 hn
  have hE21 := expectedQ_pos ha2 hb1 hn
  have hE22 := expectedQ_pos ha2 hb2 hn
  have hrow1 : (cellCount clean a1 b1 : ℚ) + (cellCount clean a1 b2 : ℚ)
      = (rowTotal clean a1 : ℚ) := by
    have := sum_cellCount_row clean a1
    rw [hc] at this
    simpa using this
  have hrow2 : (cellCount clean a2 b1 : ℚ) + (cellCount clean a2 b2 : ℚ)
      = (rowTotal clean a2 : ℚ) := by
    have := sum_cellCount_row clean a2
    rw [hc] at this
    simpa using this
  have hcol1 : (cellCount clean a1 b1 : ℚ) + (cellCount clean a2 b1 : ℚ)
      = (colTotal clean b1 : ℚ) := by
    have := sum_cellCount_col clean b1
    rw [hr] at this
    simpa using this
  have hRsum : (rowTotal clean a1 : ℚ) + (rowTotal clean a2 : ℚ) = (clean.length : ℚ) := by
    have := sum_rowTotal clean
    rw [hr] at this
    simpa using this
  have hCsum : (colTotal clean b1 : ℚ) + (colTotal clean b2 : ℚ) = (clean.length : ℚ) := by
    have := sum_colTotal clean
    rw [hc] at this
    simpa using this
  have hErow1 : expectedQ clean a1 b1 + expectedQ clean a1 b2 = (rowTotal clean a1 : ℚ) := by
    unfold expectedQ
    rw [div_add_div_same, ← mul_add, hCsum]
    field_simp
  have hErow2 : expectedQ clean a2 b1 + expectedQ clean a2 b2 = (rowTotal clean a2 : ℚ) := by
    unfold expectedQ
    rw [div_add_div_same, ← mul_add, hCsum]
    field_simp
  have hEcol1 : expectedQ clean a1 b1 + expectedQ clean a2 b1 = (colTotal clean b1 : ℚ) := by
    unfold expectedQ
    rw [div_add_div_same]
    rw [show (rowTotal clean a1 : ℚ) * (colTotal clean b1 : ℚ)
        + (rowTotal clean a2 : ℚ) * (colTotal clean b1 : ℚ)
        = ((rowTotal clean a1 : ℚ) + (rowTotal clean a2 : ℚ)) * (colTotal clean b1 : ℚ)
      by ring, hRsum]
    field_simp
  set d11 := (cellCount clean a1 b1 : ℚ) - expectedQ clean a1 b1 with hd11def
  have hd12 : (cellCount clean a1 b2 : ℚ) - expectedQ clean a1 b2 = -d11 := by
    rw [hd11def]
    linarith
  have hd21 : (cellCount clean a2 b1 : ℚ) - expectedQ clean a2 b1 = -d11 := by
    rw [hd11def]
    linarith
  have hd22 : (cellCount clean a2 b2 : ℚ) - expectedQ clean a2 b2 = d11 := by
    rw [hd11def]
    linarith
  have hexp : chi2Yates clean = yatesTerm clean a1 b1 + yatesTerm clean a1 b2
      + (yatesTerm clean a2 b1 + yatesTerm clean a2 b2) := by
    unfold chi2Yates
    rw [hr, hc]
    simp
  rcases eq_or_ne d11 0 with h0 | h0
  · have hz : ∀ x y : String, (cellCount clean x y : ℚ) - expectedQ clean x y = 0 →
        yatesTerm clean x y = 0 := by
      intro x y hxy
      unfold yatesTerm
      rw [if_pos hxy, zero_div]
    rw [hexp, hz a1 b1 (by rw [← hd11def, h0]), hz a1 b2 (by rw [hd12, h0, neg_zero]),
      hz a2 b1 (by rw [hd21, h0, neg_zero]), hz a2 b2 (by rw [hd22, h0])]
    linarith
  · rcases le_or_lt (1/2 : ℚ) |d11| with hbig | hsmall
    · -- |d| ≥ 1/2: each corrected term is at most the uncorrected one
      have hcell : ∀ (x y : String), 0 < expectedQ clean x y →
          ((cellCount clean x y : ℚ) - expectedQ clean x y = d11 ∨
            (cellCount clean x y : ℚ) - expectedQ clean x y = -d11) →
          yatesTerm clean x y ≤ chiTerm clean x y := by
        intro x y hE hd
        unfold yatesTerm chiTerm
        have habs : |(cellCount clean x y : ℚ) - expectedQ clean x y| = |d11| := by
          rcases hd with hd | hd <;> rw [hd]
          exact abs_neg d11
        have hne : (cellCount clean x y : ℚ) - expectedQ clean x y ≠ 0 := by
          intro hcon
          rw [hcon] at habs
          have : |d11| = 0 := habs.symm
          exact h0 (abs_eq_zero.mp this)
        rw [if_neg hne]
        apply (div_le_div_right hE).mpr
        rw [habs]
        have hsq : ((cellCount clean x y : ℚ) - expectedQ clean x y) ^ 2 = |d11| ^ 2 := by
          rw [← sq_abs, habs]
        rw [hsq]
        nlinarith
      rw [hexp]
      have hle : yatesTerm clean a1 b1 + yatesTerm clean a1 b2
          + (yatesTerm clean a2 b1 + yatesTerm clean a2 b2)
          ≤ chiTerm clean a1 b1 + chiTerm clean a1 b2
          + (chiTerm clean a2 b1 + chiTerm clean a2 b2) := by
        have h1 := hcell a1 b1 hE11 (Or.inl hd11def.symm)
        have h2 := hcell a1 b2 hE12 (Or.inr hd12)
        have h3 := hcell a2 b1 hE21 (Or.inr hd21)
        have h4 := hcell a2 b2 hE22 (Or.inl hd22)
        linarith
      have hplain : chiTerm clean a1 b1 + chiTerm clean a1 b2
          + (chiTerm clean a2 b1 + chiTerm clean a2 b2) ≤ (clean.length : ℚ) := by
        have hbound := chi2Plain_le_min clean hn
        have hmindim : minDim clean = 1 := by
          unfold minDim
          rw [hr, hc]
          rfl
        rw [hmindim] at hbound
        have hrw : chi2Plain clean = chiTerm clean a1 b1 + chiTerm clean a1 b2
            + (chiTerm clean a2 b1 + chiTerm clean a2 b2) := by
          unfold chi2Plain
          rw [hr, hc]
          simp
        rw [hrw] at hbound
        simpa using hbound
      linarith
    · -- |d| < 1/2: each corrected cell is at most n/4
      have hcell : ∀ (x y : String), x ∈ rowCats clean → y ∈ colCats clean →
          ((cellCount clean x y : ℚ) - expectedQ clean x y = d11 ∨
            (cellCount clean x y : ℚ) - expectedQ clean x y = -d11) →
          yatesTerm clean x y ≤ (clean.length : ℚ) / 4 := by
        intro x y hx hy hd
        have hE := expectedQ_pos hx hy hn
        have hEn : 1 / (clean.length : ℚ) ≤ expectedQ clean x y := by
          unfold expectedQ
          have hRx : (1 : ℚ) ≤ (rowTotal clean x : ℚ) := by
            exact_mod_cast rowTotal_pos hx
          have hCy : (1 : ℚ) ≤ (colTotal clean y : ℚ) := by
            exact_mod_cast colTotal_pos hy
          apply (div_le_div_right hnQ).mpr
          nlinarith
        have habs : |(cellCount clean x y : ℚ) - expectedQ clean x y| = |d11| := by
          rcases hd with hd | hd <;> rw [hd]
          exact abs_neg d11
        unfold yatesTerm
        have hnum : (if (cellCount clean x y : ℚ) - expectedQ clean x y = 0 then 0
            else (|(cellCount clean x y : ℚ) - expectedQ clean x y| - 1/2) ^ 2) ≤ 1/4 := by
          split_ifs
          · norm_num
          · rw [habs]
            have := abs_nonneg d11
            nlinarith
        have hnum0 : (0 : ℚ) ≤ (if (cellCount clean x y : ℚ) - expectedQ clean x y = 0 then 0
            else (|(cellCount clean x y : ℚ) - expectedQ clean x y| - 1/2) ^ 2) := by
          split_ifs
          · exact le_refl 0
          · positivity
        calc (if (cellCount clean x y : ℚ) - expectedQ clean x y = 0 then 0
              else (|(cellCount clean x y : ℚ) - expectedQ clean x y| - 1/2) ^ 2)
              / expectedQ clean x y
            ≤ (1/4) / (1 / (clean.length : ℚ)) := by
              exact div_le_div (by norm_num) hnum (by positivity) hEn
          _ = (clean.length : ℚ) / 4 := by
              field_simp
      rw [hexp]
      have h1 := hcell a1 b1 ha1 hb1 (Or.inl hd11def.symm)
      have h2 := hcell a1 b2 ha1 hb2 (Or.inr hd12)
      have h3 := hcell a2 b1 ha2 hb1 (Or.inr hd21)
      have h4 := hcell a2 b2 ha2 hb2 (Or.inl hd22)
      linarith

/-- Bounds for the statistic scipy returns: `0 ≤ χ² ≤ n · min_dim`. -/
theorem chi2Stat_bounds (clean : List (String × String)) (hn : clean ≠ []) :
    0 ≤ chi2Stat clean ∧ chi2Stat clean ≤ (clean.length : ℚ) * (minDim clean : ℚ) := by
  unfold chi2Stat
  split_ifs with h0 h1
  · exact ⟨le_refl 0, by positivity⟩
  · have h2 : (rowCats clean).length = 2 ∧ (colCats clean).length = 2 := by
      unfold dofQ at h1
      have h1' : ((colCats clean).length - 1) * ((rowCats clean).length - 1) = 1 := by
        rw [Nat.mul_comm]
        exact h1
      have hm1 : ((rowCats clean).length - 1) ∣ 1 := ⟨_, h1.symm⟩
      have hn1 : ((colCats clean).length - 1) ∣ 1 := ⟨_, h1'.symm⟩
      rw [Nat.dvd_one] at hm1 hn1
      omega
    rcases List.length_eq_two.mp h2.1 with ⟨a1, a2, hr⟩
    rcases List.length_eq_two.mp h2.2 with ⟨b1, b2, hc⟩
    refine ⟨chi2Yates_nonneg clean hn, ?_⟩
    have hy := chi2Yates_le_2x2 clean hn a1 a2 b1 b2 hr hc
    have hmindim : minDim clean = 1 := by
      unfold minDim
      rw [h2.1, h2.2]
      decide
    rw [hmindim]
    push_cast
    linarith
  · exact ⟨chi2Plain_nonneg clean hn, chi2Plain_le_min clean hn⟩

/-- The unrounded Cramér's V lies in the unit interval, assuming only that
the abstracted square root maps `[0, 1]` into `[0, 1]`. -/
theorem cramersV_mem_unit (sq : ℚ → ℚ)
    (hsq : ∀ x : ℚ, 0 ≤ x → 0 ≤ sq x ∧ (x ≤ 1 → sq x ≤ 1))
    (clean : List (String × String)) (hn : clean ≠ []) :
    0 ≤ cramersV sq clean ∧ cramersV sq clean ≤ 1 := by
  unfold cramersV
  split_ifs with hmin
  · have hb := chi2Stat_bounds clean hn
    have hnQ : (0 : ℚ) < (clean.length : ℚ) := by
      have := List.length_pos.mpr hn
      exact_mod_cast this
    have hmQ : (0 : ℚ) < (minDim clean : ℚ) := by exact_mod_cast hmin
    have hprod : (0 : ℚ) < (clean.length : ℚ) * (minDim clean : ℚ) := by positivity
    have harg0 : 0 ≤ chi2Stat clean / ((clean.length : ℚ) * (minDim clean : ℚ)) :=
      div_nonneg hb.1 hprod.le
    have harg1 : chi2Stat clean / ((clean.length : ℚ) * (minDim clean : ℚ)) ≤ 1 := by
      rw [div_le_one hprod]
      exact hb.2
    exact ⟨(hsq _ harg0).1, (hsq _ harg0).2 harg1⟩
  · norm_num

/-- Claim C7: on every successful chi-square run the reported Cramér's V is
(the 3-dp rounding of) `sqrt(χ² / (n · min(rows−1, cols−1)))`, is defined as
`0` (not a division fault) when the minimum dimension is `0`, and always lies
in `[0, 1]` — including under the Yates continuity correction scipy applies
to 2×2 tables.  `hsq` states the only property of `np.sqrt` used: it maps
`[0, 1]` into `[0, 1]`. -/
theorem claim_C7 (sq : ℚ → ℚ) (pChi : ℕ → ℚ → ℚ) (v1 v2 : String)
    (rows : List (Option String × Option String)) (rec : Chi2Out)
    (hsq : ∀ x : ℚ, 0 ≤ x → 0 ≤ sq x ∧ (x ≤ 1 → sq x ≤ 1))
    (h : chi_square sq pChi v1 v2 rows = Res.ok rec) :
    rec.cramers_v = roundTo 3 (cramersV sq (cleanCat rows)) ∧
    (0 < minDim (cleanCat rows) →
      cramersV sq (cleanCat rows) = sq (chi2Stat (cleanCat rows)
        / (((cleanCat rows).length : ℚ) * (minDim (cleanCat rows) : ℚ)))) ∧
    (minDim (cleanCat rows) = 0 → rec.cramers_v = 0) ∧
    0 ≤ rec.cramers_v ∧ rec.cramers_v ≤ 1 := by
  unfold chi_square at h
  split at h
  · exact absurd h (by simp)
  split at h
  · exact absurd h (by simp)
  rename_i hg1 hg2
  injection h with h
  subst h
  have hn : cleanCat rows ≠ [] := by
    intro hcon
    apply hg2
    rw [hcon]
    rfl
  have hunit := cramersV_mem_unit sq hsq (cleanCat rows) hn
  refine ⟨rfl, fun hm => ?_, fun hm => ?_, roundTo_nonneg hunit.1, roundTo_le_one hunit.2⟩
  · unfold cramersV
    rw [if_pos hm]
  · show roundTo 3 (cramersV sq (cleanCat rows)) = 0
    unfold cramersV
    rw [if_neg (by simp [hm]), roundTo_zero]

/-- Witness for C7 at a concrete 2×2 input. -/
theorem claim_C7_witness :
    ∃ rec, chi_square id (fun _ _ => 1) "الجنس" "الرأي"
        [(some "أ", some "س"), (some "أ", some "ص"), (some "ب", some "س"), (some "ب", some "ص")]
        = Res.ok rec ∧
      (rec.cramers_v = roundTo 3 (cramersV id (cleanCat
          [(some "أ", some "س"), (some "أ", some "ص"), (some "ب", some "س"),
            (some "ب", some "ص")])) ∧
        0 ≤ rec.cramers_v ∧ rec.cramers_v ≤ 1) := by
  have hsq : ∀ x : ℚ, 0 ≤ x → 0 ≤ id x ∧ (x ≤ 1 → id x ≤ 1) :=
    fun x hx => ⟨hx, fun h1 => h1⟩
  have hall := claim_C7 id (fun _ _ => 1) "الجنس" "الرأي"
    [(some "أ", some "س"), (some "أ", some "ص"), (some "ب", some "س"), (some "ب", some "ص")]
    _ hsq rfl
  exact ⟨_, rfl, hall.1, hall.2.2.2.1, hall.2.2.2.2⟩

theorem res_cases {α : Type} (r : Res α) : (∃ a, r = Res.ok a) ∨ (∃ m, r = Res.err m) := by
  cases r with
  | ok a => exact Or.inl ⟨a, rfl⟩
  | err m => exact Or.inr ⟨m, rfl⟩

/-- Claim C1: every analyzer is a total function of its inputs — every guard
violation and every exception of the underlying statistics libraries the
Python code can encounter is modelled, and each lands in the `Res.err`
constructor, whose only payload is the error-message string (the
`{"error": ...}` record with its single string field and no numeric fields);
otherwise the analyzer produces a success Result Record.  Nothing escapes as
an unhandled fault: each body is wrapped in `try/except` returning
`{"error": str(e)}`. -/
theorem claim_C1 :
    (∀ (sq : ℚ → ℚ) (pT : ℕ → ℚ → ℚ) (gv vv : String)
        (rows : List (Option String × Option ℚ)),
      (∃ rec, ttest sq pT gv vv rows = Res.ok rec) ∨
        (∃ msg, ttest sq pT gv vv rows = Res.err msg)) ∧
    (∀ (sq : ℚ → ℚ) (fOneway : List (List ℚ) → ℚ × ℚ) (dep ind : String)
        (rows : List (Option String × Option ℚ)),
      (∃ rec, anova sq fOneway dep ind rows = Res.ok rec) ∨
        (∃ msg, anova sq fOneway dep ind rows = Res.err msg)) ∧
    (∀ (sq : ℚ → ℚ) (pP : ℕ → ℚ → ℚ) (spF kdF : List ℚ → List ℚ → ℚ × ℚ)
        (names : List String) (rows : List (List (Option ℚ))),
      (∃ rec, correlation sq pP spF kdF names rows = Res.ok rec) ∨
        (∃ msg, correlation sq pP spF kdF names rows = Res.err msg)) ∧
    (∀ (sq : ℚ → ℚ) (pChi : ℕ → ℚ → ℚ) (v1 v2 : String)
        (rows : List (Option String × Option String)),
      (∃ rec, chi_square sq pChi v1 v2 rows = Res.ok rec) ∨
        (∃ msg, chi_square sq pChi v1 v2 rows = Res.err msg)) ∧
    (∀ (sq : ℚ → ℚ) (names : List String) (rows : List (List (Option ℚ))),
      (∃ rec, cronbach_alpha sq names rows = Res.ok rec) ∨
        (∃ msg, cronbach_alpha sq names rows = Res.err msg)) ∧
    (∀ (fit : List (List ℚ) → List ℚ → Option FitRes) (dep : String)
        (inds : List String) (rows : List (List (Option ℚ))),
      (∃ rec, multiple_regression fit dep inds rows = Res.ok rec) ∨
        (∃ msg, multiple_regression fit dep inds rows = Res.err msg)) :=
  ⟨fun sq pT gv vv rows => res_cases (ttest sq pT gv vv rows),
   fun sq f dep ind rows => res_cases (anova sq f dep ind rows),
   fun sq pP spF kdF names rows => res_cases (correlation sq pP spF kdF names rows),
   fun sq pChi v1 v2 rows => res_cases (chi_square sq pChi v1 v2 rows),
   fun sq names rows => res_cases (cronbach_alpha sq names rows),
   fun fit dep inds rows => res_cases (multiple_regression fit dep inds rows)⟩

/-- Witness for the amended C5 at a concrete two-group input. -/
theorem claim_C5_amended_witness :
    ∃ rec recSwap recReord,
      ttest id (fun _ _ => 1) "النوع" "الدرجة"
        [(some "س", some 1), (some "س", some 3), (some "ص", some 2), (some "ص", some 6)]
        = Res.ok rec ∧
      ttest id (fun _ _ => 1) "النوع" "الدرجة"
        (relabel "س" "ص"
          [(some "س", some 1), (some "س", some 3), (some "ص", some 2), (some "ص", some 6)])
        = Res.ok recSwap ∧
      ttest id (fun _ _ => 1) "النوع" "الدرجة"
        (reorderRows "ص"
          [(some "س", some 1), (some "س", some 3), (some "ص", some 2), (some "ص", some 6)])
        = Res.ok recReord ∧
      recSwap.t = rec.t ∧ recSwap.p = rec.p ∧ recSwap.cohens_d = rec.cohens_d ∧
      recSwap.group1.name = "ص" ∧ recSwap.group2.name = "س" ∧
      recReord.t = -rec.t ∧ recReord.p = rec.p ∧ |recReord.cohens_d| = |rec.cohens_d| :=
  claim_C5_amended id (fun _ _ => 1) "النوع" "الدرجة" "س" "ص"
    [(some "س", some 1), (some "س", some 3), (some "ص", some 2), (some "ص", some 6)]
    (by decide)

end SPSS
